import Mathlib

/-!
Verification model of the pod-eigs worker (`src/pod-eigs/src/main.rs`):
the bencode value model, the canonical codec, the incremental parser,
the resynchronizing session loop and the request dispatcher, together
with proofs of the specified properties.

Bytes are modelled as `List Nat` (each element a `u8` value), machine
integers as `Int`/`Nat` with explicit range checks where the Rust code
checks them (`i64`/`usize` parsing).
-/

/-- Result of an attempted parse (`enum ParseError`): more input needed,
or invalid input with a reason. -/
inductive ParseError where
  | needMore : ParseError
  | invalid : String → ParseError
deriving DecidableEq

/-- The bencode value model (`enum Bencode`). Dictionaries are sorted
association lists, the contents of a `BTreeMap<Vec<u8>, Bencode>`. -/
inductive Bencode where
  | int : Int → Bencode
  | bytes : List Nat → Bencode
  | list : List Bencode → Bencode
  | dict : List (List Nat × Bencode) → Bencode

/-- Lexicographic byte-string comparison: the `Ord` instance of `Vec<u8>`. -/
def lexCompare : List Nat → List Nat → Ordering
  | [], [] => .eq
  | [], _ :: _ => .lt
  | _ :: _, [] => .gt
  | a :: as1, b :: bs1 =>
    match compare a b with
    | .eq => lexCompare as1 bs1
    | o => o

/-- `BTreeMap::insert` on the sorted association list: keeps keys in
ascending order and overwrites an existing equal key. -/
def dictInsert (k : List Nat) (v : Bencode) :
    List (List Nat × Bencode) → List (List Nat × Bencode)
  | [] => [(k, v)]
  | (k1, v1) :: rest =>
    match lexCompare k k1 with
    | .lt => (k, v) :: (k1, v1) :: rest
    | .eq => (k, v) :: rest
    | .gt => (k1, v1) :: dictInsert k v rest

/-- `BTreeMap::get` on the sorted association list. -/
def dict_get : List (List Nat × Bencode) → List Nat → Option Bencode
  | [], _ => none
  | (k1, v1) :: rest, k => if k1 = k then some v1 else dict_get rest k

/-- Insert a sequence of key/value pairs in order (a sequence of
`BTreeMap::insert` calls) into an existing map. -/
def insertAll (acc : List (List Nat × Bencode)) (l : List (List Nat × Bencode)) :
    List (List Nat × Bencode) :=
  l.foldl (fun acc2 kv => dictInsert kv.1 kv.2 acc2) acc

/-- Build a map from a list of key/value pairs by inserting them in order,
starting from the empty map (`BTreeMap::from` / repeated `insert`). -/
def fromPairs (l : List (List Nat × Bencode)) : List (List Nat × Bencode) :=
  insertAll [] l

/-- One-pass UTF-8 validation: `bounds` holds the admissible ranges of the
continuation bytes still expected for the current multi-byte character. -/
def utf8Fold : List Nat → List (Nat × Nat) → Bool
  | [], bounds => bounds.isEmpty
  | c :: rest, [] =>
    if c < 0x80 then utf8Fold rest []
    else if c < 0xC2 then false
    else if c ≤ 0xDF then utf8Fold rest [(0x80, 0xBF)]
    else if c ≤ 0xEF then
      utf8Fold rest
        [(if c = 0xE0 then (0xA0, 0xBF)
          else if c = 0xED then (0x80, 0x9F)
          else (0x80, 0xBF)), (0x80, 0xBF)]
    else if c ≤ 0xF4 then
      utf8Fold rest
        [(if c = 0xF0 then (0x90, 0xBF)
          else if c = 0xF4 then (0x80, 0x8F)
          else (0x80, 0xBF)), (0x80, 0xBF), (0x80, 0xBF)]
    else false
  | c :: rest, (lo, hi) :: bounds =>
    if lo ≤ c ∧ c ≤ hi then utf8Fold rest bounds else false

/-- The UTF-8 byte sequences accepted by Rust's `str::from_utf8`: ASCII
bytes stand alone; a leader in `C2..DF` / `E0..EF` / `F0..F4` is followed
by 1 / 2 / 3 continuation bytes, whose admissible ranges exclude overlong
encodings and surrogates. -/
def validUtf8 (l : List Nat) : Bool := utf8Fold l []

/-- The numeric value of a nonempty all-ASCII-digit byte string, `none`
otherwise (the digit-consuming core of Rust's integer `from_str`). -/
def natFromDigits (l : List Nat) : Option Nat :=
  match l with
  | [] => none
  | _ :: _ =>
    if l.all (fun c => 48 ≤ c && c ≤ 57) then
      some (l.foldl (fun acc c => acc * 10 + (c - 48)) 0)
    else none

/-- Rust `i64::from_str` on a byte string: optional sign, decimal digits,
value within the `i64` range. -/
def i64FromAscii (s : List Nat) : Option Int :=
  match s with
  | [] => none
  | c :: rest =>
    if c = 43 then
      (natFromDigits rest).bind fun n =>
        if n < 2 ^ 63 then some (n : Int) else none
    else if c = 45 then
      (natFromDigits rest).bind fun n =>
        if n ≤ 2 ^ 63 then some (-(n : Int)) else none
    else
      (natFromDigits s).bind fun n =>
        if n < 2 ^ 63 then some (n : Int) else none

/-- Rust `usize::from_str` on a byte string: optional leading `+`, decimal
digits, value within the 64-bit `usize` range. -/
def usizeFromAscii (s : List Nat) : Option Nat :=
  match s with
  | [] => none
  | c :: rest =>
    if c = 43 then
      (natFromDigits rest).bind fun n => if n < 2 ^ 64 then some n else none
    else
      (natFromDigits s).bind fun n => if n < 2 ^ 64 then some n else none

/-- `parse_int`: decode the bytes as UTF-8 then parse as `i64`. -/
def parse_int (bytes : List Nat) : Except ParseError Int :=
  if validUtf8 bytes then
    match i64FromAscii bytes with
    | some v => .ok v
    | none => .error (.invalid "invalid int")
  else .error (.invalid "invalid int utf8")

/-- `parse_len`: decode the bytes as UTF-8 then parse as `usize`. -/
def parse_len (bytes : List Nat) : Except ParseError Nat :=
  if validUtf8 bytes then
    match usizeFromAscii bytes with
    | some v => .ok v
    | none => .error (.invalid "invalid len")
  else .error (.invalid "invalid len utf8")

/-- Index of the first occurrence of byte `t` at or after `start`
(`buf.length` when absent): the `while idx < buf.len() && buf[idx] != t`
scan loops of `parse_at`. -/
def scanFor (buf : List Nat) (t : Nat) (start : Nat) : Nat :=
  start + ((buf.drop start).takeWhile (fun c => c != t)).length

/-- The slice `buf[start..stop]`. -/
def sliceOf (buf : List Nat) (start stop : Nat) : List Nat :=
  (buf.drop start).take (stop - start)

/-- The integer branch of `parse_at` (leading byte `b'i'` at `idx`): scan
for `b'e'`, then parse the digits between. The refinement on the result
records that parsing consumed at least one byte and stayed in bounds. -/
def parseIntAt (buf : List Nat) (idx : Nat) :
    Except ParseError { p : Bencode × Nat // idx < p.2 ∧ p.2 ≤ buf.length } :=
  if h2 : scanFor buf 101 (idx + 1) < buf.length then
    match parse_int (sliceOf buf (idx + 1) (scanFor buf 101 (idx + 1))) with
    | .error e => .error e
    | .ok v =>
      .ok ⟨(.int v, scanFor buf 101 (idx + 1) + 1),
        ⟨by unfold scanFor; omega, h2⟩⟩
  else .error .needMore

/-- The byte-string branch of `parse_at` (leading digit at `idx`): scan for
the `b':'` separator, parse the length, then take that many payload bytes. -/
def parseBytesAt (buf : List Nat) (idx : Nat) :
    Except ParseError { p : Bencode × Nat // idx < p.2 ∧ p.2 ≤ buf.length } :=
  if h2 : scanFor buf 58 idx < buf.length then
    match parse_len (sliceOf buf idx (scanFor buf 58 idx)) with
    | .error e => .error e
    | .ok len =>
      if h3 : scanFor buf 58 idx + 1 + len > buf.length then .error .needMore
      else
        .ok ⟨(.bytes (sliceOf buf (scanFor buf 58 idx + 1)
                (scanFor buf 58 idx + 1 + len)), scanFor buf 58 idx + 1 + len),
          ⟨by unfold scanFor; omega, by omega⟩⟩
  else .error .needMore

mutual

/-- `parse_at` (instrumented with bounds used for termination): parse one
bencode value starting at `idx`, returning the value and the index one
past its encoding. Dispatch on the leading byte: `b'i'` = 105 integer,
`b'l'` = 108 list, `b'd'` = 100 dict, ASCII digit byte string, anything
else is invalid. -/
def parseAtB (buf : List Nat) (idx : Nat) :
    Except ParseError { p : Bencode × Nat // idx < p.2 ∧ p.2 ≤ buf.length } :=
  if h : idx < buf.length then
    if buf.getD idx 0 = 105 then parseIntAt buf idx
    else if buf.getD idx 0 = 108 then
      match parseListB buf (idx + 1) [] with
      | .error e => .error e
      | .ok s => .ok ⟨s.val, ⟨Nat.lt_of_succ_lt s.property.1, s.property.2⟩⟩
    else if buf.getD idx 0 = 100 then
      match parseDictB buf (idx + 1) [] with
      | .error e => .error e
      | .ok s => .ok ⟨s.val, ⟨Nat.lt_of_succ_lt s.property.1, s.property.2⟩⟩
    else if 48 ≤ buf.getD idx 0 ∧ buf.getD idx 0 ≤ 57 then parseBytesAt buf idx
    else .error (.invalid "invalid bencode prefix")
  else .error .needMore
termination_by ((buf.length - idx) * 2, 0)
decreasing_by
  all_goals exact Prod.Lex.left _ _ (by omega)

/-- The list-items loop of `parse_at` (`b'l'` branch): `acc` holds the
items parsed so far, in reverse order. -/
def parseListB (buf : List Nat) (idx : Nat) (acc : List Bencode) :
    Except ParseError { p : Bencode × Nat // idx < p.2 ∧ p.2 ≤ buf.length } :=
  if h : idx < buf.length then
    if buf.getD idx 0 = 101 then
      .ok ⟨(.list acc.reverse, idx + 1), ⟨Nat.lt_succ_self idx, h⟩⟩
    else
      match parseAtB buf idx with
      | .error e => .error e
      | .ok s =>
        match parseListB buf s.val.2 (s.val.1 :: acc) with
        | .error e => .error e
        | .ok t => .ok ⟨t.val, ⟨Nat.lt_trans s.property.1 t.property.1, t.property.2⟩⟩
  else .error .needMore
termination_by ((buf.length - idx) * 2, 1)
decreasing_by
  · exact Prod.Lex.right _ (by omega)
  · have h1 := s.property.1
    have h2 := s.property.2
    exact Prod.Lex.left _ _ (by omega)

/-- The dict-entries loop of `parse_at` (`b'd'` branch): parse alternating
keys and values, requiring each key to be a byte string, and insert each
pair into the accumulated map (later keys overwrite earlier ones). -/
def parseDictB (buf : List Nat) (idx : Nat) (acc : List (List Nat × Bencode)) :
    Except ParseError { p : Bencode × Nat // idx < p.2 ∧ p.2 ≤ buf.length } :=
  if h : idx < buf.length then
    if buf.getD idx 0 = 101 then
      .ok ⟨(.dict acc, idx + 1), ⟨Nat.lt_succ_self idx, h⟩⟩
    else
      match parseAtB buf idx with
      | .error e => .error e
      | .ok s =>
        match s.val.1 with
        | .bytes kb =>
          match parseAtB buf s.val.2 with
          | .error e => .error e
          | .ok t =>
            match parseDictB buf t.val.2 (dictInsert kb t.val.1 acc) with
            | .error e => .error e
            | .ok u =>
              .ok ⟨u.val,
                ⟨Nat.lt_trans (Nat.lt_trans s.property.1 t.property.1) u.property.1,
                 u.property.2⟩⟩
        | _ => .error (.invalid "dict key must be bytes")
  else .error .needMore
termination_by ((buf.length - idx) * 2, 1)
decreasing_by
  · exact Prod.Lex.right _ (by omega)
  · have h1 := s.property.1
    have h2 := s.property.2
    exact Prod.Lex.left _ _ (by omega)
  · have h1 := s.property.1
    have h2 := s.property.2
    have h3 := t.property.1
    have h4 := t.property.2
    exact Prod.Lex.left _ _ (by omega)

end

/-- `parse_at`: the parser as the Rust function presents it, a value and
the number of bytes consumed when `idx` starts at the buffer front. -/
def parse_at (buf : List Nat) (idx : Nat) : Except ParseError (Bencode × Nat) :=
  (parseAtB buf idx).map Subtype.val

/-- Unrefined view of the list-items loop. -/
def parseListW (buf : List Nat) (idx : Nat) (acc : List Bencode) :
    Except ParseError (Bencode × Nat) :=
  (parseListB buf idx acc).map Subtype.val

/-- Unrefined view of the dict-entries loop. -/
def parseDictW (buf : List Nat) (idx : Nat) (acc : List (List Nat × Bencode)) :
    Except ParseError (Bencode × Nat) :=
  (parseDictB buf idx acc).map Subtype.val

/-- ASCII decimal digits of `n`, least significant first; `fuel`-guarded
structural recursion (any `fuel ≥ n` is exact). -/
def digitsGo : Nat → Nat → List Nat
  | 0, _ => []
  | f + 1, n => if n = 0 then [] else (n % 10 + 48) :: digitsGo f (n / 10)
    -- the first argument is the fuel; any fuel at least the number is exact

/-- ASCII decimal representation of `n` (most significant digit first):
Rust's `format!("{}", n)` for unsigned values. -/
def natToDigitsAscii (n : Nat) : List Nat :=
  if n = 0 then [48] else (digitsGo n n).reverse

/-- ASCII decimal representation of a signed integer: a leading `b'-'`
for negatives, as `format!("{}", i)`. -/
def intToAscii (i : Int) : List Nat :=
  if i < 0 then 45 :: natToDigitsAscii i.natAbs else natToDigitsAscii i.toNat

/-- `encode_bytes`: ASCII decimal length, `b':'`, then the raw bytes. -/
def encode_bytes (data : List Nat) : List Nat :=
  natToDigitsAscii data.length ++ 58 :: data

mutual

/-- `encode_bencode`: the canonical encoding. Integers between `b'i'`/`b'e'`
markers, byte strings length-prefixed, lists and dicts between
`b'l'`/`b'd'` and `b'e'` markers; dict entries are emitted in the stored
(ascending key) order, each key's bytes-encoding followed by its value. -/
def encode_bencode : Bencode → List Nat
  | .int i => 105 :: (intToAscii i ++ [101])
  | .bytes b => encode_bytes b
  | .list l => 108 :: (encodeItems l ++ [101])
  | .dict d => 100 :: (encodeEntries d ++ [101])
termination_by structural v => v

/-- Concatenated encodings of list items, in order. -/
def encodeItems : List Bencode → List Nat
  | [] => []
  | v :: t => encode_bencode v ++ encodeItems t
termination_by structural l => l

/-- Concatenated encodings of dict entries, in stored order. -/
def encodeEntries : List (List Nat × Bencode) → List Nat
  | [] => []
  | (k, v) :: t => encode_bytes k ++ encode_bencode v ++ encodeEntries t
termination_by structural l => l

end

/-- Keys of a dict in strictly ascending order: the `BTreeMap` invariant. -/
def keysSorted (d : List (List Nat × Bencode)) : Prop :=
  d.Pairwise (fun p q => lexCompare p.1 q.1 = .lt)

instance : DecidablePred keysSorted := fun d =>
  inferInstanceAs (Decidable (List.Pairwise _ d))

mutual

/-- Representable (well-formed) values: integers in the `i64` range, byte
strings of `u8` values with a `usize` length, and dicts that satisfy the
`BTreeMap` sorted-unique-keys invariant. -/
def valueWF : Bencode → Bool
  | .int i => decide (-(2 ^ 63) ≤ i) && decide (i < 2 ^ 63)
  | .bytes b => b.all (fun c => c < 256) && decide (b.length < 2 ^ 64)
  | .list l => itemsWF l
  | .dict d => entriesWF d && decide (keysSorted d)

/-- All list items well-formed. -/
def itemsWF : List Bencode → Bool
  | [] => true
  | v :: t => valueWF v && itemsWF t

/-- All dict keys are `u8` strings of `usize` length and values well-formed. -/
def entriesWF : List (List Nat × Bencode) → Bool
  | [] => true
  | (k, v) :: t =>
    (k.all (fun c => c < 256) && decide (k.length < 2 ^ 64)) &&
      valueWF v && entriesWF t

end

/-- Bytes of an ASCII string literal (`str::as_bytes`; all literals used
by the program are ASCII). -/
def strBytes (s : String) : List Nat := s.toList.map Char.toNat

/-- `bencode_str`: the byte-string payload of a value when it is valid
UTF-8 (`String::from_utf8(...).ok()`), identified with its byte content. -/
def bencode_str : Bencode → Option (List Nat)
  | .bytes b => if validUtf8 b then some b else none
  | _ => none

/-- `bencode_int`: the integer payload of an integer value. -/
def bencode_int : Bencode → Option Int
  | .int i => some i
  | _ => none

/-- The JSON value model of `serde_json::Value`; numbers are idealized as
rationals standing for the `f64`/`i64` numeric payloads. -/
inductive Json where
  | null : Json
  | bool : Bool → Json
  | num : ℚ → Json
  | str : String → Json
  | arr : List Json → Json
  | obj : List (String × Json) → Json

/-- `Value::get(key)` on an object. -/
def Json.get : Json → String → Option Json
  | .obj m, k => (m.find? (fun kv => kv.1 == k)).map (fun kv => kv.2)
  | _, _ => none

/-- `Value::as_array`. -/
def Json.asArray : Json → Option (List Json)
  | .arr l => some l
  | _ => none

/-- `Value::as_bool`. -/
def Json.asBool : Json → Option Bool
  | .bool b => some b
  | _ => none

/-- `json_number_to_f64`: the numeric payload of a JSON number. -/
def json_number_to_f64 : Json → Option ℚ
  | .num q => some q
  | _ => none

/-- Collect the numeric entries of a JSON array, failing with `msg` on any
non-number (the entry loops of `build_matrix`). -/
def collectNums (msg : String) : List Json → Except String (List ℚ)
  | [] => .ok []
  | j :: t =>
    match json_number_to_f64 j with
    | none => .error msg
    | some q =>
      match collectNums msg t with
      | .error e => .error e
      | .ok qs => .ok (q :: qs)

/-- Collect the row-major entries of the `rows` representation, checking
each row is an array of 6 numbers (the row loop of `build_matrix`). -/
def collectRows : List Json → Except String (List ℚ)
  | [] => .ok []
  | r :: t =>
    match r.asArray with
    | none => .error "row must be a vector"
    | some row =>
      if row.length ≠ 6 then .error "each row must have length 6"
      else
        match collectNums "row entries must be numbers" row with
        | .error e => .error e
        | .ok qs =>
          match collectRows t with
          | .error e => .error e
          | .ok rest => .ok (qs ++ rest)

/-- `build_matrix`: read a 6x6 matrix (row-major entry list) and the
`symmetric` flag from the JSON input, via `rows` (6 arrays of 6) or
`data` (a flat array of 36). -/
def build_matrix (input : Json) : Except String (List ℚ × Bool) :=
  let symmetric := ((input.get "symmetric").bind Json.asBool).getD false
  match input.get "rows" with
  | some rowsJ =>
    match rowsJ.asArray with
    | none => .error "rows must be a vector"
    | some rows =>
      if rows.length ≠ 6 then .error "rows must have length 6"
      else
        match collectRows rows with
        | .error e => .error e
        | .ok data => .ok (data, symmetric)
  | none =>
    match input.get "data" with
    | some dataJ =>
      match dataJ.asArray with
      | none => .error "data must be a vector"
      | some items =>
        if items.length ≠ 36 then .error "data must have length 36"
        else
          match collectNums "data entries must be numbers" items with
          | .error e => .error e
          | .ok arr => .ok (arr, symmetric)
    | none => .error "expected :data (len 36) or :rows (6x6)"

/-- Entry `(i, j)` of the row-major 6x6 matrix (`m[(i, j)]`). -/
def entryAt (m : List ℚ) (i j : Nat) : ℚ := m.getD (i * 6 + j) 0

/-- `check_symmetric`: every off-diagonal pair `(i, j)`, `j > i`, differs
from its transpose counterpart by at most `eps`. -/
def check_symmetric (m : List ℚ) (eps : ℚ) : Bool :=
  (List.range 6).all fun i =>
    ((List.range 6).drop (i + 1)).all fun j =>
      decide (|entryAt m i j - entryAt m j i| ≤ eps)

/-- Ascending insertion into a sorted list of rationals. -/
def insertSortedQ (x : ℚ) : List ℚ → List ℚ
  | [] => [x]
  | y :: t => if x ≤ y then x :: y :: t else y :: insertSortedQ x t

/-- Ascending sort of eigenvalues (`values.sort_by(partial_cmp)`). -/
def sortQ (l : List ℚ) : List ℚ := l.foldr insertSortedQ []

/-- Ordering on complex eigenvalue pairs: real part ascending, ties broken
by imaginary part ascending. -/
def pairLE (a b : ℚ × ℚ) : Bool :=
  decide (a.1 < b.1) || (decide (a.1 = b.1) && decide (a.2 ≤ b.2))

/-- Sorted insertion for complex eigenvalue pairs. -/
def insertSortedPair (x : ℚ × ℚ) : List (ℚ × ℚ) → List (ℚ × ℚ)
  | [] => [x]
  | y :: t => if pairLE x y then x :: y :: t else y :: insertSortedPair x t

/-- Sort of complex eigenvalue pairs. -/
def sortPairs (l : List (ℚ × ℚ)) : List (ℚ × ℚ) := l.foldr insertSortedPair []

/-- The external collaborators the dispatcher calls into, abstracted as
parameters of the model: `serde_json::from_slice`, `serde_json::to_string`,
`SymmetricEigen::new(..).eigenvalues` and
`Schur::try_new(.., 1.0e-12, 256).complex_eigenvalues()` (the last returns
`none` when the bounded Schur iteration fails to converge). These are
library code outside this repository; every theorem about the dispatcher
holds for an arbitrary interpretation of them. -/
structure Externals where
  jsonParse : List Nat → Option Json
  jsonToString : Json → Option (List Nat)
  symEig : List ℚ → List ℚ
  schurEig : List ℚ → Option (List (ℚ × ℚ))

/-- `eigenvalues_for`: with `symmetric` set, verify symmetry within
`1.0e-9` and return the sorted real eigenvalues; otherwise return the
complex eigenvalues of the bounded Schur decomposition, sorted by real
then imaginary part. -/
def eigenvalues_for (ext : Externals) (matrix : List ℚ) (symmetric : Bool) :
    Except String Json :=
  if symmetric then
    if !check_symmetric matrix (1 / 10 ^ 9) then
      .error "matrix is not symmetric within epsilon"
    else
      .ok (.obj [("eigenvalues", .arr ((sortQ (ext.symEig matrix)).map Json.num))])
  else
    match ext.schurEig matrix with
    | none => .error "schur decomposition failed to converge within 256 iterations"
    | some vals =>
      .ok (.obj [("eigenvalues",
        .arr ((sortPairs vals).map fun p => .arr [.num p.1, .num p.2]))])

/-- `response_map`: a response dict holding `id` (when present) and the
given key/value pairs. -/
def response_map (id : Option Bencode) (pairs : List (List Nat × Bencode)) :
    Bencode :=
  let d0 := match id with
    | some i => dictInsert (strBytes "id") i []
    | none => []
  .dict (insertAll d0 pairs)

/-- `write_error`: the single encoded error response an `invoke` failure
writes: `op: invoke`, the message as `ex-message`, `ex-type: Exception`. -/
def write_error (id : Option Bencode) (msg : String) : List (List Nat) :=
  [encode_bencode (response_map id
    [(strBytes "op", .bytes (strBytes "invoke")),
     (strBytes "ex-message", .bytes (strBytes msg)),
     (strBytes "ex-type", .bytes (strBytes "Exception"))])]

/-- `handle_describe`: the static capability manifest response. -/
def handle_describe (id : Option Bencode) : List (List Nat) :=
  [encode_bencode (response_map id
    [(strBytes "op", .bytes (strBytes "describe")),
     (strBytes "format", .bytes (strBytes "json")),
     (strBytes "namespaces", .list
       [.dict (fromPairs
         [(strBytes "name", .bytes (strBytes "pod.eigs")),
          (strBytes "vars", .list
            [.dict (fromPairs
              [(strBytes "name", .bytes (strBytes "eigenvalues")),
               (strBytes "doc",
                 .bytes (strBytes "Compute eigenvalues for a 6x6 matrix.")),
               (strBytes "arglists", .bytes (strBytes "([m])"))])])])])])]

/-- The `args` extraction of `handle_invoke`: a nonempty list whose first
element is a byte string yields that byte string, a bare byte string
yields itself, anything else yields `none`. -/
def argBytes : Option Bencode → Option (List Nat)
  | some (.list (.bytes b :: _)) => some b
  | some (.list (_ :: _)) => none
  | some (.list []) => none
  | some (.bytes b) => some b
  | _ => none

/-- The array-unwrapping step of `handle_invoke`: a one-element JSON array
is unwrapped, a longer (or empty-but-array) one is rejected. -/
def unwrapSingle : Json → Except String Json
  | .arr [x] => .ok x
  | .arr _ => .error "expected single arg map"
  | j => .ok j

/-- `handle_invoke`: validate `var` and `args`, parse the JSON argument,
build the matrix, run the eigenvalue computation, and write exactly one
response (an error response at the first failing step). -/
def handle_invoke (ext : Externals) (dict : List (List Nat × Bencode)) :
    List (List Nat) :=
  let id := dict_get dict (strBytes "id")
  match (dict_get dict (strBytes "var")).bind bencode_str with
  | none => write_error id "missing var"
  | some var =>
    if var ≠ strBytes "pod.eigs/eigenvalues" then write_error id "unknown var"
    else
      match argBytes (dict_get dict (strBytes "args")) with
      | none => write_error id "missing args"
      | some argb =>
        match ext.jsonParse argb with
        | none => write_error id "invalid json input"
        | some j =>
          match unwrapSingle j with
          | .error e => write_error id e
          | .ok input =>
            match build_matrix input with
            | .error e => write_error id e
            | .ok (matrix, symmetric) =>
              match eigenvalues_for ext matrix symmetric with
              | .error e => write_error id e
              | .ok output =>
                match ext.jsonToString output with
                | none => write_error id "failed to serialize output"
                | some value =>
                  [encode_bencode (response_map id
                    [(strBytes "op", .bytes (strBytes "invoke")),
                     (strBytes "value", .bytes value)])]

/-- `handle_message`: dispatch a decoded message. Non-dict messages and
unrecognized (or absent, or non-UTF-8) ops produce no response; the
`shutdown` op is also a no-op here (the session loop pre-checks it). -/
def handle_message (ext : Externals) (msg : Bencode) : List (List Nat) :=
  match msg with
  | .dict d =>
    let op := ((dict_get d (strBytes "op")).bind bencode_str).getD []
    let id := dict_get d (strBytes "id")
    if op = strBytes "describe" then handle_describe id
    else if op = strBytes "invoke" then handle_invoke ext d
    else if op = strBytes "shutdown" then []
    else []
  | _ => []

/-- The session loop's shutdown pre-check: the message is a dict whose
`op` key holds exactly the bytes `b"shutdown"`. -/
def shutdownCheck : Bencode → Bool
  | .dict d =>
    match dict_get d (strBytes "op") with
    | some (.bytes op) => decide (op = strBytes "shutdown")
    | _ => false
  | _ => false

/-- Observable outcome of draining the session buffer: response writes in
order, the final parse-error counter, the bytes left in the buffer, and
whether the process terminated via `shutdown`. -/
structure DrainOut where
  writes : List (List Nat)
  errors : Nat
  leftover : List Nat
  stopped : Bool
deriving DecidableEq

/-- The inner drain loop of `main`: parse at the buffer front; on success
drop the consumed prefix, terminate on the `shutdown` pre-check, otherwise
dispatch and continue; on `NeedMore` stop and wait for input; on a parse
error increment the counter, drop one byte and retry. -/
def drain (ext : Externals) (buf : List Nat) (errors : Nat) : DrainOut :=
  match parseAtB buf 0 with
  | .ok s =>
    if shutdownCheck s.val.1 then
      ⟨[], errors, buf.drop s.val.2, true⟩
    else
      let r := drain ext (buf.drop s.val.2) errors
      ⟨handle_message ext s.val.1 ++ r.writes, r.errors, r.leftover, r.stopped⟩
  | .error .needMore => ⟨[], errors, buf, false⟩
  | .error (.invalid _) =>
    if h : buf.length = 0 then ⟨[], errors + 1, buf, false⟩
    else drain ext (buf.drop 1) (errors + 1)
termination_by buf.length
decreasing_by
  · have h1 := s.property.1
    have h2 := s.property.2
    simp only [List.length_drop]
    omega
  · simp only [List.length_drop]
    omega

/-- Feed the parser a growing buffer chunk by chunk, stopping at the first
complete parse: the incremental-equivalence experiment of the spec. -/
def incrParse (buf : List Nat) : List (List Nat) → Except ParseError (Bencode × Nat)
  | [] => parse_at buf 0
  | c :: cs =>
    match parse_at buf 0 with
    | .ok r => .ok r
    | .error _ => incrParse (buf ++ c) cs

/-! ## Basic facts about buffers, scanning and slicing -/

theorem lt_length_of_drop_cons {buf : List Nat} {idx c : Nat} {t : List Nat}
    (h : buf.drop idx = c :: t) : idx < buf.length := by
  have hl := congrArg List.length h
  simp only [List.length_drop, List.length_cons] at hl
  omega

theorem getD_of_drop {buf : List Nat} {idx c : Nat} {t : List Nat}
    (h : buf.drop idx = c :: t) : buf.getD idx 0 = c := by
  have h0 : buf[idx]? = some c := by
    have := List.getElem?_drop buf idx 0
    rw [h] at this
    simpa using this.symm
  simp [List.getD_eq_getElem?_getD, h0]

theorem drop_add_of_drop {buf : List Nat} {idx : Nat} {l : List Nat}
    (h : buf.drop idx = l) (k : Nat) : buf.drop (idx + k) = l.drop k := by
  rw [← h, List.drop_drop, Nat.add_comm]

theorem takeWhile_ne_of_all {t : Nat} (l : List Nat) (hl : ∀ c ∈ l, c ≠ t) :
    l.takeWhile (fun c => c != t) = l := by
  induction l with
  | nil => rfl
  | cons c l ih =>
    have hc : (c != t) = true := bne_iff_ne.mpr (hl c (by simp))
    simp only [List.takeWhile_cons, hc, if_true, List.cons.injEq, true_and]
    exact ih (fun x hx => hl x (by simp [hx]))

theorem takeWhile_append_stop {t : Nat} (a : List Nat) (r : List Nat)
    (ha : ∀ c ∈ a, c ≠ t) :
    (a ++ t :: r).takeWhile (fun c => c != t) = a := by
  induction a with
  | nil => simp [List.takeWhile_cons]
  | cons c a ih =>
    have hc : (c != t) = true := bne_iff_ne.mpr (ha c (by simp))
    simp only [List.cons_append, List.takeWhile_cons, hc, if_true,
      List.cons.injEq, true_and]
    exact ih (fun x hx => ha x (by simp [hx]))

theorem scanFor_of_drop {buf : List Nat} {idx t : Nat} {a r : List Nat}
    (h : buf.drop idx = a ++ t :: r) (ha : ∀ c ∈ a, c ≠ t) :
    scanFor buf t idx = idx + a.length := by
  unfold scanFor
  rw [h, takeWhile_append_stop a r ha]

theorem scanFor_ge_length {buf : List Nat} {idx t : Nat}
    (h : ∀ c ∈ buf.drop idx, c ≠ t) :
    buf.length ≤ scanFor buf t idx := by
  unfold scanFor
  rw [takeWhile_ne_of_all _ h]
  simp only [List.length_drop]
  omega

theorem sliceOf_of_drop {buf : List Nat} {idx : Nat} {a r : List Nat}
    (h : buf.drop idx = a ++ r) :
    sliceOf buf idx (idx + a.length) = a := by
  unfold sliceOf
  rw [h]
  simp [List.take_left]

/-! ## Unfolding the parser at the unrefined level -/

theorem parse_at_of_ge {buf : List Nat} {idx : Nat} (h : buf.length ≤ idx) :
    parse_at buf idx = .error .needMore := by
  unfold parse_at parseAtB
  rw [dif_neg (by omega)]
  rfl

theorem parse_at_int_ok {buf : List Nat} {idx : Nat} {v : Int}
    (hlt : idx < buf.length) (hb : buf.getD idx 0 = 105)
    (hscan : scanFor buf 101 (idx + 1) < buf.length)
    (hpi : parse_int (sliceOf buf (idx + 1) (scanFor buf 101 (idx + 1))) = .ok v) :
    parse_at buf idx = .ok (.int v, scanFor buf 101 (idx + 1) + 1) := by
  unfold parse_at parseAtB
  rw [dif_pos hlt, if_pos hb]
  unfold parseIntAt
  rw [dif_pos hscan, hpi]
  rfl

theorem parse_at_int_needMore {buf : List Nat} {idx : Nat}
    (hlt : idx < buf.length) (hb : buf.getD idx 0 = 105)
    (hscan : buf.length ≤ scanFor buf 101 (idx + 1)) :
    parse_at buf idx = .error .needMore := by
  unfold parse_at parseAtB
  rw [dif_pos hlt, if_pos hb]
  unfold parseIntAt
  rw [dif_neg (by omega)]
  rfl

theorem parse_at_int_invalid {buf : List Nat} {idx : Nat} {e : ParseError}
    (hlt : idx < buf.length) (hb : buf.getD idx 0 = 105)
    (hscan : scanFor buf 101 (idx + 1) < buf.length)
    (hpi : parse_int (sliceOf buf (idx + 1) (scanFor buf 101 (idx + 1))) = .error e) :
    parse_at buf idx = .error e := by
  unfold parse_at parseAtB
  rw [dif_pos hlt, if_pos hb]
  unfold parseIntAt
  rw [dif_pos hscan, hpi]
  rfl

theorem parse_at_list_branch {buf : List Nat} {idx : Nat}
    (hlt : idx < buf.length) (hb : buf.getD idx 0 = 108) :
    parse_at buf idx = parseListW buf (idx + 1) [] := by
  unfold parse_at parseAtB parseListW
  rw [dif_pos hlt, hb]
  rw [if_neg (by decide), if_pos rfl]
  cases hs : parseListB buf (idx + 1) [] <;> simp [Except.map]

theorem parse_at_dict_branch {buf : List Nat} {idx : Nat}
    (hlt : idx < buf.length) (hb : buf.getD idx 0 = 100) :
    parse_at buf idx = parseDictW buf (idx + 1) [] := by
  unfold parse_at parseAtB parseDictW
  rw [dif_pos hlt, hb]
  rw [if_neg (by decide), if_neg (by decide), if_pos rfl]
  cases hs : parseDictB buf (idx + 1) [] <;> simp [Except.map]

theorem parse_at_bytes_ok {buf : List Nat} {idx len : Nat}
    (hlt : idx < buf.length) (hb : 48 ≤ buf.getD idx 0 ∧ buf.getD idx 0 ≤ 57)
    (hscan : scanFor buf 58 idx < buf.length)
    (hpl : parse_len (sliceOf buf idx (scanFor buf 58 idx)) = .ok len)
    (hfit : scanFor buf 58 idx + 1 + len ≤ buf.length) :
    parse_at buf idx =
      .ok (.bytes (sliceOf buf (scanFor buf 58 idx + 1)
        (scanFor buf 58 idx + 1 + len)), scanFor buf 58 idx + 1 + len) := by
  unfold parse_at parseAtB
  rw [dif_pos hlt, if_neg (by omega), if_neg (by omega), if_neg (by omega),
    if_pos hb]
  unfold parseBytesAt
  rw [dif_pos hscan, hpl]
  dsimp only
  rw [dif_neg (by omega)]
  rfl

theorem parse_at_bytes_needMore_scan {buf : List Nat} {idx : Nat}
    (hlt : idx < buf.length) (hb : 48 ≤ buf.getD idx 0 ∧ buf.getD idx 0 ≤ 57)
    (hscan : buf.length ≤ scanFor buf 58 idx) :
    parse_at buf idx = .error .needMore := by
  unfold parse_at parseAtB
  rw [dif_pos hlt, if_neg (by omega), if_neg (by omega), if_neg (by omega),
    if_pos hb]
  unfold parseBytesAt
  rw [dif_neg (by omega)]
  rfl

theorem parse_at_bytes_needMore_fit {buf : List Nat} {idx len : Nat}
    (hlt : idx < buf.length) (hb : 48 ≤ buf.getD idx 0 ∧ buf.getD idx 0 ≤ 57)
    (hscan : scanFor buf 58 idx < buf.length)
    (hpl : parse_len (sliceOf buf idx (scanFor buf 58 idx)) = .ok len)
    (hfit : buf.length < scanFor buf 58 idx + 1 + len) :
    parse_at buf idx = .error .needMore := by
  unfold parse_at parseAtB
  rw [dif_pos hlt, if_neg (by omega), if_neg (by omega), if_neg (by omega),
    if_pos hb]
  unfold parseBytesAt
  rw [dif_pos hscan, hpl]
  dsimp only
  rw [dif_pos (by omega)]
  rfl

theorem parse_at_bytes_invalid {buf : List Nat} {idx : Nat} {e : ParseError}
    (hlt : idx < buf.length) (hb : 48 ≤ buf.getD idx 0 ∧ buf.getD idx 0 ≤ 57)
    (hscan : scanFor buf 58 idx < buf.length)
    (hpl : parse_len (sliceOf buf idx (scanFor buf 58 idx)) = .error e) :
    parse_at buf idx = .error e := by
  unfold parse_at parseAtB
  rw [dif_pos hlt, if_neg (by omega), if_neg (by omega), if_neg (by omega),
    if_pos hb]
  unfold parseBytesAt
  rw [dif_pos hscan, hpl]
  rfl

theorem parse_at_invalid_start {buf : List Nat} {idx : Nat}
    (hlt : idx < buf.length)
    (hb : buf.getD idx 0 ≠ 105) (hl : buf.getD idx 0 ≠ 108)
    (hd : buf.getD idx 0 ≠ 100)
    (hdig : ¬(48 ≤ buf.getD idx 0 ∧ buf.getD idx 0 ≤ 57)) :
    parse_at buf idx = .error (.invalid "invalid bencode prefix") := by
  unfold parse_at parseAtB
  rw [dif_pos hlt, if_neg hb, if_neg hl, if_neg hd, if_neg hdig]
  rfl

theorem parseListW_of_ge {buf : List Nat} {idx : Nat} {acc : List Bencode}
    (h : buf.length ≤ idx) : parseListW buf idx acc = .error .needMore := by
  unfold parseListW parseListB
  rw [dif_neg (by omega)]
  rfl

theorem parseListW_end {buf : List Nat} {idx : Nat} {acc : List Bencode}
    (hlt : idx < buf.length) (hb : buf.getD idx 0 = 101) :
    parseListW buf idx acc = .ok (.list acc.reverse, idx + 1) := by
  unfold parseListW parseListB
  rw [dif_pos hlt, if_pos hb]
  rfl

theorem parseListW_step_err {buf : List Nat} {idx : Nat} {acc : List Bencode}
    {e : ParseError}
    (hlt : idx < buf.length) (hb : buf.getD idx 0 ≠ 101)
    (hp : parse_at buf idx = .error e) :
    parseListW buf idx acc = .error e := by
  unfold parse_at at hp
  unfold parseListW parseListB
  rw [dif_pos hlt, if_neg hb]
  cases hs : parseAtB buf idx with
  | error e2 => rw [hs] at hp; simp [Except.map] at hp; simp [hp, Except.map]
  | ok s => rw [hs] at hp; simp [Except.map] at hp

theorem parseListW_step_ok {buf : List Nat} {idx n : Nat} {acc : List Bencode}
    {v : Bencode}
    (hlt : idx < buf.length) (hb : buf.getD idx 0 ≠ 101)
    (hp : parse_at buf idx = .ok (v, n)) :
    parseListW buf idx acc = parseListW buf n (v :: acc) := by
  unfold parse_at at hp
  conv_lhs => unfold parseListW parseListB
  rw [dif_pos hlt, if_neg hb]
  cases hs : parseAtB buf idx with
  | error e2 => rw [hs] at hp; simp [Except.map] at hp
  | ok s =>
    rw [hs] at hp
    simp only [Except.map, Except.ok.injEq] at hp
    obtain ⟨⟨v2, n2⟩, hsp⟩ := s
    simp only at hp
    cases hp
    dsimp only
    cases ht : parseListB buf n (v :: acc) <;> simp [parseListW, Except.map, ht]

theorem parseDictW_of_ge {buf : List Nat} {idx : Nat}
    {acc : List (List Nat × Bencode)}
    (h : buf.length ≤ idx) : parseDictW buf idx acc = .error .needMore := by
  unfold parseDictW parseDictB
  rw [dif_neg (by omega)]
  rfl

theorem parseDictW_end {buf : List Nat} {idx : Nat}
    {acc : List (List Nat × Bencode)}
    (hlt : idx < buf.length) (hb : buf.getD idx 0 = 101) :
    parseDictW buf idx acc = .ok (.dict acc, idx + 1) := by
  unfold parseDictW parseDictB
  rw [dif_pos hlt, if_pos hb]
  rfl

theorem parseDictW_key_err {buf : List Nat} {idx : Nat}
    {acc : List (List Nat × Bencode)} {e : ParseError}
    (hlt : idx < buf.length) (hb : buf.getD idx 0 ≠ 101)
    (hp : parse_at buf idx = .error e) :
    parseDictW buf idx acc = .error e := by
  unfold parse_at at hp
  unfold parseDictW parseDictB
  rw [dif_pos hlt, if_neg hb]
  cases hs : parseAtB buf idx with
  | error e2 => rw [hs] at hp; simp [Except.map] at hp; simp [hp, Except.map]
  | ok s => rw [hs] at hp; simp [Except.map] at hp

theorem parseDictW_key_nonbytes {buf : List Nat} {idx n : Nat}
    {acc : List (List Nat × Bencode)} {v : Bencode}
    (hlt : idx < buf.length) (hb : buf.getD idx 0 ≠ 101)
    (hp : parse_at buf idx = .ok (v, n)) (hv : ∀ kb, v ≠ .bytes kb) :
    parseDictW buf idx acc = .error (.invalid "dict key must be bytes") := by
  unfold parse_at at hp
  unfold parseDictW parseDictB
  rw [dif_pos hlt, if_neg hb]
  cases hs : parseAtB buf idx with
  | error e2 => rw [hs] at hp; simp [Except.map] at hp
  | ok s =>
    rw [hs] at hp
    simp only [Except.map, Except.ok.injEq] at hp
    obtain ⟨⟨v2, n2⟩, hsp⟩ := s
    simp only at hp
    cases hp
    cases v with
    | bytes kb => exact absurd rfl (hv kb)
    | int i => rfl
    | list l => rfl
    | dict d => rfl

theorem parseDictW_step {buf : List Nat} {idx n n2 : Nat}
    {acc : List (List Nat × Bencode)} {kb : List Nat} {w : Bencode}
    (hlt : idx < buf.length) (hb : buf.getD idx 0 ≠ 101)
    (hk : parse_at buf idx = .ok (.bytes kb, n))
    (hw : parse_at buf n = .ok (w, n2)) :
    parseDictW buf idx acc = parseDictW buf n2 (dictInsert kb w acc) := by
  unfold parse_at at hk hw
  conv_lhs => unfold parseDictW parseDictB
  rw [dif_pos hlt, if_neg hb]
  cases hs : parseAtB buf idx with
  | error e2 => rw [hs] at hk; simp [Except.map] at hk
  | ok s =>
    rw [hs] at hk
    simp only [Except.map, Except.ok.injEq] at hk
    obtain ⟨⟨v2, m2⟩, hsp⟩ := s
    simp only at hk
    cases hk
    dsimp only
    cases ht : parseAtB buf n with
    | error e2 => rw [ht] at hw; simp [Except.map] at hw
    | ok t =>
      rw [ht] at hw
      simp only [Except.map, Except.ok.injEq] at hw
      obtain ⟨⟨w2, m3⟩, htp⟩ := t
      simp only at hw
      cases hw
      dsimp only
      cases hu : parseDictB buf n2 (dictInsert kb w acc) <;>
        simp [parseDictW, Except.map, hu]

theorem parseDictW_val_err {buf : List Nat} {idx n : Nat}
    {acc : List (List Nat × Bencode)} {kb : List Nat} {e : ParseError}
    (hlt : idx < buf.length) (hb : buf.getD idx 0 ≠ 101)
    (hk : parse_at buf idx = .ok (.bytes kb, n))
    (hw : parse_at buf n = .error e) :
    parseDictW buf idx acc = .error e := by
  unfold parse_at at hk hw
  unfold parseDictW parseDictB
  rw [dif_pos hlt, if_neg hb]
  cases hs : parseAtB buf idx with
  | error e2 => rw [hs] at hk; simp [Except.map] at hk
  | ok s =>
    rw [hs] at hk
    simp only [Except.map, Except.ok.injEq] at hk
    obtain ⟨⟨v2, m2⟩, hsp⟩ := s
    simp only at hk
    cases hk
    dsimp only
    cases ht : parseAtB buf n with
    | error e2 => rw [ht] at hw; simp [Except.map] at hw; simp [hw, Except.map]
    | ok t => rw [ht] at hw; simp [Except.map] at hw

theorem parse_at_bounds {buf : List Nat} {idx n : Nat} {v : Bencode}
    (h : parse_at buf idx = .ok (v, n)) : idx < n ∧ n ≤ buf.length := by
  unfold parse_at at h
  cases hs : parseAtB buf idx with
  | error e => rw [hs] at h; simp [Except.map] at h
  | ok s =>
    rw [hs] at h
    simp only [Except.map, Except.ok.injEq] at h
    have := s.property
    rw [h] at this
    exact this

/-! ## Decimal digit encoding facts -/

theorem digitsGo_eq : ∀ n fuel : Nat, n ≤ fuel →
    digitsGo fuel n = (Nat.digits 10 n).map (· + 48) := by
  intro n fuel
  induction fuel generalizing n with
  | zero =>
    intro h
    have : n = 0 := by omega
    subst this
    simp [digitsGo]
  | succ f ih =>
    intro h
    by_cases hn : n = 0
    · subst hn; simp [digitsGo]
    · have hd : Nat.digits 10 n = n % 10 :: Nat.digits 10 (n / 10) :=
        Nat.digits_def' (by norm_num) (by omega)
      have hstep : digitsGo (f + 1) n =
          (n % 10 + 48) :: digitsGo f (n / 10) := by
        simp [digitsGo, hn]
      have hlt : n / 10 < n := Nat.div_lt_self (by omega) (by norm_num)
      rw [hstep, hd, ih (n / 10) (by omega)]
      simp

theorem natToDigitsAscii_eq (n : Nat) :
    natToDigitsAscii n =
      if n = 0 then [48] else ((Nat.digits 10 n).map (· + 48)).reverse := by
  unfold natToDigitsAscii
  rw [digitsGo_eq n n (Nat.le_refl n)]

theorem mem_natToDigitsAscii {n c : Nat} (h : c ∈ natToDigitsAscii n) :
    48 ≤ c ∧ c ≤ 57 := by
  rw [natToDigitsAscii_eq] at h
  by_cases hn : n = 0
  · rw [if_pos hn] at h
    simp only [List.mem_singleton] at h
    omega
  · rw [if_neg hn, List.mem_reverse, List.mem_map] at h
    obtain ⟨d, hd, hdc⟩ := h
    have := Nat.digits_lt_base (by norm_num) hd
    omega

theorem natToDigitsAscii_ne_nil (n : Nat) : natToDigitsAscii n ≠ [] := by
  rw [natToDigitsAscii_eq]
  by_cases hn : n = 0
  · simp [hn]
  · simp only [hn, if_false, ne_eq, List.reverse_eq_nil_iff, List.map_eq_nil_iff]
    exact Nat.digits_ne_nil_iff_ne_zero.mpr hn

theorem validUtf8_cons_of_lt {c : Nat} (l : List Nat) (hc : c < 0x80) :
    validUtf8 (c :: l) = validUtf8 l := by
  simp only [validUtf8, utf8Fold]
  rw [if_pos hc]

theorem validUtf8_of_ascii {l : List Nat} (h : ∀ c ∈ l, c < 128) :
    validUtf8 l = true := by
  induction l with
  | nil => rfl
  | cons c l ih =>
    rw [validUtf8_cons_of_lt l (by have := h c (by simp); omega)]
    exact ih (fun x hx => h x (by simp [hx]))

theorem foldl_base10 (R : List Nat) :
    ∀ a : Nat, R.foldl (fun x d => x * 10 + d) a =
      a * 10 ^ R.length + Nat.ofDigits 10 R.reverse := by
  induction R with
  | nil => intro a; simp
  | cons d t ih =>
    intro a
    simp only [List.foldl_cons, List.reverse_cons, List.length_cons]
    rw [ih (a * 10 + d), Nat.ofDigits_append, Nat.ofDigits_singleton]
    simp only [List.length_reverse]
    ring

theorem foldl_ascii_digits (R : List Nat) : ∀ a : Nat,
    (R.map (· + 48)).foldl (fun acc c => acc * 10 + (c - 48)) a =
      R.foldl (fun acc d => acc * 10 + d) a := by
  induction R with
  | nil => intro a; rfl
  | cons d t ih =>
    intro a
    simp only [List.map_cons, List.foldl_cons]
    have hd : d + 48 - 48 = d := by omega
    rw [hd]
    exact ih _

theorem natFromDigits_natToDigitsAscii (n : Nat) :
    natFromDigits (natToDigitsAscii n) = some n := by
  have hall : (natToDigitsAscii n).all (fun c => 48 ≤ c && c ≤ 57) = true := by
    rw [List.all_eq_true]
    intro c hc
    have := mem_natToDigitsAscii hc
    simp only [Bool.and_eq_true, decide_eq_true_eq]
    omega
  obtain ⟨c, t, hct⟩ : ∃ c t, natToDigitsAscii n = c :: t := by
    cases hl : natToDigitsAscii n with
    | nil => exact absurd hl (natToDigitsAscii_ne_nil n)
    | cons c t => exact ⟨c, t, rfl⟩
  rw [hct]
  rw [hct] at hall
  simp only [natFromDigits, hall, if_true]
  rw [← hct, natToDigitsAscii_eq]
  by_cases hn : n = 0
  · subst hn
    decide
  · rw [if_neg hn, ← List.map_reverse]
    rw [foldl_ascii_digits, foldl_base10, List.reverse_reverse,
      Nat.ofDigits_digits]
    simp

theorem mem_intToAscii {i : Int} {c : Nat} (h : c ∈ intToAscii i) :
    c = 45 ∨ (48 ≤ c ∧ c ≤ 57) := by
  unfold intToAscii at h
  by_cases hi : i < 0
  · rw [if_pos hi] at h
    rcases List.mem_cons.mp h with h | h
    · exact Or.inl h
    · exact Or.inr (mem_natToDigitsAscii h)
  · rw [if_neg hi] at h
    exact Or.inr (mem_natToDigitsAscii h)

theorem parse_int_intToAscii {i : Int} (h1 : -(2 ^ 63) ≤ i) (h2 : i < 2 ^ 63) :
    parse_int (intToAscii i) = .ok i := by
  have hutf : validUtf8 (intToAscii i) = true := by
    apply validUtf8_of_ascii
    intro c hc
    rcases mem_intToAscii hc with h | h <;> omega
  unfold parse_int
  rw [hutf]
  simp only [if_true]
  by_cases hi : i < 0
  · have henc : intToAscii i = 45 :: natToDigitsAscii i.natAbs := by
      unfold intToAscii
      rw [if_pos hi]
    rw [henc]
    simp only [i64FromAscii]
    simp only [reduceIte]
    rw [natFromDigits_natToDigitsAscii]
    have habs : i.natAbs ≤ 2 ^ 63 := by omega
    dsimp only [Option.bind]
    rw [if_pos habs]
    have hval : -(↑i.natAbs : Int) = i := by omega
    rw [hval]
    rfl
  · have henc : intToAscii i = natToDigitsAscii i.toNat := by
      unfold intToAscii
      rw [if_neg hi]
    obtain ⟨c, t, hct⟩ : ∃ c t, natToDigitsAscii i.toNat = c :: t := by
      cases hl : natToDigitsAscii i.toNat with
      | nil => exact absurd hl (natToDigitsAscii_ne_nil _)
      | cons c t => exact ⟨c, t, rfl⟩
    have hc : 48 ≤ c ∧ c ≤ 57 :=
      mem_natToDigitsAscii (by rw [hct]; exact List.mem_cons_self c t)
    rw [henc, hct]
    simp only [i64FromAscii]
    rw [if_neg (by omega), if_neg (by omega)]
    rw [← hct, natFromDigits_natToDigitsAscii]
    dsimp only [Option.bind]
    have htn : i.toNat < 2 ^ 63 := by omega
    rw [if_pos htn]
    have hval : (↑i.toNat : Int) = i := by omega
    rw [hval]

theorem parse_len_natToDigitsAscii {n : Nat} (h : n < 2 ^ 64) :
    parse_len (natToDigitsAscii n) = .ok n := by
  have hutf : validUtf8 (natToDigitsAscii n) = true := by
    apply validUtf8_of_ascii
    intro c hc
    have := mem_natToDigitsAscii hc
    omega
  unfold parse_len
  rw [hutf]
  simp only [if_true]
  obtain ⟨c, t, hct⟩ : ∃ c t, natToDigitsAscii n = c :: t := by
    cases hl : natToDigitsAscii n with
    | nil => exact absurd hl (natToDigitsAscii_ne_nil _)
    | cons c t => exact ⟨c, t, rfl⟩
  have hc : 48 ≤ c ∧ c ≤ 57 :=
    mem_natToDigitsAscii (by rw [hct]; exact List.mem_cons_self c t)
  rw [hct]
  simp only [usizeFromAscii]
  rw [if_neg (by omega)]
  rw [← hct, natFromDigits_natToDigitsAscii]
  dsimp only [Option.bind]
  rw [if_pos h]

/-! ## Ordering facts about byte-string comparison and map insertion -/

theorem lexCompare_eq_iff : ∀ a b : List Nat, lexCompare a b = .eq ↔ a = b := by
  intro a
  induction a with
  | nil =>
    intro b
    cases b <;> simp [lexCompare]
  | cons c1 t1 ih =>
    intro b
    cases b with
    | nil => simp [lexCompare]
    | cons c2 t2 =>
      simp only [lexCompare]
      cases h : compare c1 c2 with
      | lt =>
        have hne : c1 ≠ c2 := by
          have := Nat.compare_eq_lt.mp h
          omega
        simp [hne]
      | eq =>
        have heq : c1 = c2 := Nat.compare_eq_eq.mp h
        simp [heq, ih t2]
      | gt =>
        have hne : c1 ≠ c2 := by
          have := Nat.compare_eq_gt.mp h
          omega
        simp [hne]

theorem lexCompare_lt_iff_gt : ∀ a b : List Nat,
    lexCompare a b = .lt ↔ lexCompare b a = .gt := by
  intro a
  induction a with
  | nil =>
    intro b
    cases b <;> simp [lexCompare]
  | cons c1 t1 ih =>
    intro b
    cases b with
    | nil => simp [lexCompare]
    | cons c2 t2 =>
      simp only [lexCompare]
      cases h : compare c1 c2 with
      | lt =>
        have h2 : compare c2 c1 = .gt := Nat.compare_eq_gt.mpr (Nat.compare_eq_lt.mp h)
        simp [h2]
      | eq =>
        have heq : c1 = c2 := Nat.compare_eq_eq.mp h
        have h2 : compare c2 c1 = .eq := Nat.compare_eq_eq.mpr heq.symm
        simp [h2, ih t2]
      | gt =>
        have h2 : compare c2 c1 = .lt := Nat.compare_eq_lt.mpr (Nat.compare_eq_gt.mp h)
        simp [h2]

theorem lexCompare_trans_lt : ∀ a b c : List Nat,
    lexCompare a b = .lt → lexCompare b c = .lt → lexCompare a c = .lt := by
  intro a
  induction a with
  | nil =>
    intro b c hab hbc
    cases b with
    | nil => exact hbc
    | cons b1 tb =>
      cases c with
      | nil => simp [lexCompare] at hbc
      | cons c1 tc => simp [lexCompare]
  | cons a1 ta ih =>
    intro b c hab hbc
    cases b with
    | nil => simp [lexCompare] at hab
    | cons b1 tb =>
      cases c with
      | nil => simp [lexCompare] at hbc
      | cons c1 tc =>
        simp only [lexCompare] at hab hbc ⊢
        cases h1 : compare a1 b1 with
        | lt =>
          have ha1b1 := Nat.compare_eq_lt.mp h1
          cases h2 : compare b1 c1 with
          | lt =>
            have := Nat.compare_eq_lt.mp h2
            rw [Nat.compare_eq_lt.mpr (by omega)]
          | eq =>
            have := Nat.compare_eq_eq.mp h2
            rw [Nat.compare_eq_lt.mpr (by omega)]
          | gt => rw [h2] at hbc; exact absurd hbc (by simp)
        | eq =>
          have ha1b1 := Nat.compare_eq_eq.mp h1
          rw [h1] at hab
          cases h2 : compare b1 c1 with
          | lt =>
            have := Nat.compare_eq_lt.mp h2
            rw [Nat.compare_eq_lt.mpr (by omega)]
          | eq =>
            have := Nat.compare_eq_eq.mp h2
            rw [h2] at hbc
            rw [Nat.compare_eq_eq.mpr (by omega)]
            exact ih tb tc hab hbc
          | gt => rw [h2] at hbc; exact absurd hbc (by simp)
        | gt => rw [h1] at hab; exact absurd hab (by simp)

theorem dictInsert_append_of_lt {k : List Nat} {v : Bencode} :
    ∀ acc : List (List Nat × Bencode),
    (∀ p ∈ acc, lexCompare p.1 k = .lt) →
    dictInsert k v acc = acc ++ [(k, v)] := by
  intro acc
  induction acc with
  | nil => intro _; rfl
  | cons p t ih =>
    intro h
    obtain ⟨k1, v1⟩ := p
    have h1 : lexCompare k1 k = .lt := h (k1, v1) (by simp)
    have h2 : lexCompare k k1 = .gt := (lexCompare_lt_iff_gt k1 k).mp h1
    simp only [dictInsert, h2]
    rw [ih (fun q hq => h q (by simp [hq]))]
    simp

theorem insertAll_of_sorted :
    ∀ (d acc : List (List Nat × Bencode)),
    (acc ++ d).Pairwise (fun p q => lexCompare p.1 q.1 = .lt) →
    insertAll acc d = acc ++ d := by
  intro d
  induction d with
  | nil => intro acc _; simp [insertAll]
  | cons p t ih =>
    intro acc h
    obtain ⟨k, v⟩ := p
    have hacc : ∀ q ∈ acc, lexCompare q.1 k = .lt := by
      intro q hq
      have := (List.pairwise_append.mp h).2.2
      exact this q hq (k, v) (by simp)
    have hstep : insertAll acc ((k, v) :: t) = insertAll (dictInsert k v acc) t := by
      simp [insertAll]
    rw [hstep, dictInsert_append_of_lt acc hacc]
    rw [ih (acc ++ [(k, v)]) (by simpa using h)]
    simp

theorem fromPairs_of_sorted {d : List (List Nat × Bencode)}
    (h : keysSorted d) : fromPairs d = d := by
  unfold fromPairs
  exact insertAll_of_sorted d [] (by simpa [keysSorted] using h)

/-! ## Shape of encodings and round-trip for atoms -/

theorem encode_bytes_eq (b : List Nat) :
    encode_bytes b = natToDigitsAscii b.length ++ 58 :: b := rfl

theorem encode_head_spec (v : Bencode) :
    ∃ c r, encode_bencode v = c :: r ∧ c ≠ 101 ∧
      (c = 105 ∨ c = 108 ∨ c = 100 ∨ (48 ≤ c ∧ c ≤ 57)) := by
  cases v with
  | int i =>
    exact ⟨105, intToAscii i ++ [101], by simp [encode_bencode], by omega,
      by omega⟩
  | bytes b =>
    obtain ⟨c, t, hct⟩ : ∃ c t, natToDigitsAscii b.length = c :: t := by
      cases hl : natToDigitsAscii b.length with
      | nil => exact absurd hl (natToDigitsAscii_ne_nil _)
      | cons c t => exact ⟨c, t, rfl⟩
    have hc : 48 ≤ c ∧ c ≤ 57 :=
      mem_natToDigitsAscii (by rw [hct]; exact List.mem_cons_self c t)
    refine ⟨c, t ++ 58 :: b, ?_, by omega, by omega⟩
    show encode_bytes b = c :: (t ++ 58 :: b)
    rw [encode_bytes_eq, hct]
    simp
  | list l =>
    exact ⟨108, encodeItems l ++ [101], by simp [encode_bencode], by omega,
      by omega⟩
  | dict d =>
    exact ⟨100, encodeEntries d ++ [101], by simp [encode_bencode], by omega,
      by omega⟩

theorem encode_length_pos (v : Bencode) : 0 < (encode_bencode v).length := by
  obtain ⟨c, r, hcr, _, _⟩ := encode_head_spec v
  simp [hcr]

theorem parse_at_drop_int {buf : List Nat} {idx : Nat} {i : Int} {rest : List Nat}
    (h1 : -(2 ^ 63) ≤ i) (h2 : i < 2 ^ 63)
    (hd : buf.drop idx = encode_bencode (.int i) ++ rest) :
    parse_at buf idx = .ok (.int i, idx + (encode_bencode (.int i)).length) := by
  have henc : encode_bencode (.int i) = 105 :: (intToAscii i ++ [101]) := by
    simp [encode_bencode]
  rw [henc] at hd
  simp only [List.cons_append] at hd
  have hb : buf.getD idx 0 = 105 := getD_of_drop hd
  have hlt : idx < buf.length := lt_length_of_drop_cons hd
  have hd1 : buf.drop (idx + 1) = intToAscii i ++ 101 :: rest := by
    have := drop_add_of_drop hd 1
    simpa using this
  have hscan : scanFor buf 101 (idx + 1) = (idx + 1) + (intToAscii i).length :=
    scanFor_of_drop hd1
      (fun c hc => by rcases mem_intToAscii hc with h | h <;> omega)
  have hlen : idx + 1 + (intToAscii i).length + 1 + rest.length ≤ buf.length := by
    have hl := congrArg List.length hd1
    simp only [List.length_drop, List.length_append, List.length_cons] at hl
    omega
  have hscanlt : scanFor buf 101 (idx + 1) < buf.length := by
    rw [hscan]; omega
  have hslice : sliceOf buf (idx + 1) (scanFor buf 101 (idx + 1)) =
      intToAscii i := by
    rw [hscan]
    exact sliceOf_of_drop hd1
  have hpi : parse_int (sliceOf buf (idx + 1) (scanFor buf 101 (idx + 1))) =
      .ok i := by
    rw [hslice]
    exact parse_int_intToAscii h1 h2
  rw [parse_at_int_ok hlt hb hscanlt hpi]
  have hfin : scanFor buf 101 (idx + 1) + 1 =
      idx + (encode_bencode (.int i)).length := by
    rw [hscan, henc]
    simp only [List.length_cons, List.length_append, List.length_nil]
    omega
  rw [hfin]

theorem parse_at_drop_bytes {buf : List Nat} {idx : Nat} {b : List Nat}
    {rest : List Nat} (hblen : b.length < 2 ^ 64)
    (hd : buf.drop idx = encode_bytes b ++ rest) :
    parse_at buf idx = .ok (.bytes b, idx + (encode_bytes b).length) := by
  obtain ⟨c, t, hct⟩ : ∃ c t, natToDigitsAscii b.length = c :: t := by
    cases hl : natToDigitsAscii b.length with
    | nil => exact absurd hl (natToDigitsAscii_ne_nil _)
    | cons c t => exact ⟨c, t, rfl⟩
  rw [encode_bytes_eq] at hd
  have hd' : buf.drop idx = natToDigitsAscii b.length ++ 58 :: (b ++ rest) := by
    rw [hd]; simp
  have hb : buf.getD idx 0 = c := by
    apply getD_of_drop (t := t ++ 58 :: (b ++ rest))
    rw [hd', hct]
    simp
  have hcdig : 48 ≤ c ∧ c ≤ 57 :=
    mem_natToDigitsAscii (by rw [hct]; exact List.mem_cons_self c t)
  have hlt : idx < buf.length := by
    apply lt_length_of_drop_cons (c := c) (t := t ++ 58 :: (b ++ rest))
    rw [hd', hct]
    simp
  have hscan : scanFor buf 58 idx = idx + (natToDigitsAscii b.length).length :=
    scanFor_of_drop hd'
      (fun x hx => by have := mem_natToDigitsAscii hx; omega)
  have hlen : idx + (natToDigitsAscii b.length).length + 1 + b.length +
      rest.length ≤ buf.length := by
    have hl := congrArg List.length hd'
    simp only [List.length_drop, List.length_append, List.length_cons] at hl
    omega
  have hscanlt : scanFor buf 58 idx < buf.length := by
    rw [hscan]; omega
  have hslice : sliceOf buf idx (scanFor buf 58 idx) =
      natToDigitsAscii b.length := by
    rw [hscan]
    exact sliceOf_of_drop hd'
  have hpl : parse_len (sliceOf buf idx (scanFor buf 58 idx)) = .ok b.length := by
    rw [hslice]
    exact parse_len_natToDigitsAscii hblen
  have hfit : scanFor buf 58 idx + 1 + b.length ≤ buf.length := by
    rw [hscan]; omega
  have hdpay : buf.drop (idx + ((natToDigitsAscii b.length).length + 1)) =
      b ++ rest := by
    have := drop_add_of_drop hd' ((natToDigitsAscii b.length).length + 1)
    rw [this]
    rw [show natToDigitsAscii b.length ++ 58 :: (b ++ rest) =
      (natToDigitsAscii b.length ++ [58]) ++ (b ++ rest) by simp]
    rw [show (natToDigitsAscii b.length).length + 1 =
      (natToDigitsAscii b.length ++ [58]).length by simp]
    exact List.drop_left _ _
  have hpay : sliceOf buf (scanFor buf 58 idx + 1)
      (scanFor buf 58 idx + 1 + b.length) = b := by
    have hs : scanFor buf 58 idx + 1 =
        idx + ((natToDigitsAscii b.length).length + 1) := by
      rw [hscan]; omega
    rw [hs]
    have := sliceOf_of_drop hdpay
    exact this
  rw [parse_at_bytes_ok hlt (by rw [hb]; exact hcdig) hscanlt hpl hfit, hpay]
  have hfin : scanFor buf 58 idx + 1 + b.length =
      idx + (encode_bytes b).length := by
    rw [hscan, encode_bytes_eq]
    simp only [List.length_append, List.length_cons, List.length_nil]
    omega
  rw [hfin]

/-! ## Round trip: parsing an encoding at the buffer front -/

theorem parseListW_drop_items {n : Nat}
    (ih : ∀ w : Bencode, sizeOf w ≤ n → valueWF w = true →
      ∀ (buf : List Nat) (idx : Nat) (rest : List Nat),
        buf.drop idx = encode_bencode w ++ rest →
        parse_at buf idx = .ok (w, idx + (encode_bencode w).length)) :
    ∀ (l : List Bencode), (∀ v ∈ l, sizeOf v ≤ n) → itemsWF l = true →
    ∀ (buf : List Nat) (idx : Nat) (rest : List Nat) (acc : List Bencode),
      buf.drop idx = encodeItems l ++ 101 :: rest →
      parseListW buf idx acc =
        .ok (.list (acc.reverse ++ l), idx + (encodeItems l).length + 1) := by
  intro l
  induction l with
  | nil =>
    intro _ _ buf idx rest acc hd
    simp only [encodeItems, List.nil_append] at hd
    have hlt := lt_length_of_drop_cons hd
    have hb := getD_of_drop hd
    rw [parseListW_end hlt hb]
    simp [encodeItems]
  | cons v t iht =>
    intro hsz hwf buf idx rest acc hd
    have hd1 : buf.drop idx =
        encode_bencode v ++ (encodeItems t ++ 101 :: rest) := by
      rw [hd]
      simp [encodeItems]
    obtain ⟨c, r, hcr, hne, _⟩ := encode_head_spec v
    have hb : buf.getD idx 0 = c :=
      getD_of_drop (c := c) (t := r ++ (encodeItems t ++ 101 :: rest))
        (by rw [hd1, hcr]; simp)
    have hlt : idx < buf.length :=
      lt_length_of_drop_cons (c := c) (t := r ++ (encodeItems t ++ 101 :: rest))
        (by rw [hd1, hcr]; simp)
    have hwfs : valueWF v = true ∧ itemsWF t = true := by
      have : itemsWF (v :: t) = (valueWF v && itemsWF t) := by simp [itemsWF]
      rw [this] at hwf
      exact ⟨(Bool.and_eq_true _ _).mp hwf |>.1, (Bool.and_eq_true _ _).mp hwf |>.2⟩
    have hp : parse_at buf idx = .ok (v, idx + (encode_bencode v).length) :=
      ih v (hsz v (by simp)) hwfs.1 buf idx _ hd1
    rw [parseListW_step_ok hlt (by rw [hb]; exact hne) hp]
    have hd2 : buf.drop (idx + (encode_bencode v).length) =
        encodeItems t ++ 101 :: rest := by
      rw [drop_add_of_drop hd1 (encode_bencode v).length]
      exact List.drop_left _ _
    rw [iht (fun w hw => hsz w (by simp [hw])) hwfs.2 buf _ rest (v :: acc) hd2]
    have h1 : (v :: acc).reverse ++ t = acc.reverse ++ (v :: t) := by simp
    have h2 : idx + (encode_bencode v).length + (encodeItems t).length + 1 =
        idx + (encodeItems (v :: t)).length + 1 := by
      simp only [encodeItems, List.length_append]
      omega
    rw [h1, h2]

theorem parseDictW_drop_entries {n : Nat}
    (ih : ∀ w : Bencode, sizeOf w ≤ n → valueWF w = true →
      ∀ (buf : List Nat) (idx : Nat) (rest : List Nat),
        buf.drop idx = encode_bencode w ++ rest →
        parse_at buf idx = .ok (w, idx + (encode_bencode w).length)) :
    ∀ (d : List (List Nat × Bencode)), (∀ kv ∈ d, sizeOf kv.2 ≤ n) →
    entriesWF d = true →
    ∀ (buf : List Nat) (idx : Nat) (rest : List Nat)
      (acc : List (List Nat × Bencode)),
      buf.drop idx = encodeEntries d ++ 101 :: rest →
      parseDictW buf idx acc =
        .ok (.dict (insertAll acc d), idx + (encodeEntries d).length + 1) := by
  intro d
  induction d with
  | nil =>
    intro _ _ buf idx rest acc hd
    simp only [encodeEntries, List.nil_append] at hd
    have hlt := lt_length_of_drop_cons hd
    have hb := getD_of_drop hd
    rw [parseDictW_end hlt hb]
    simp [encodeEntries, insertAll]
  | cons kv t iht =>
    intro hsz hwf buf idx rest acc hd
    obtain ⟨k, w⟩ := kv
    have hwfs : (k.all (fun c => c < 256) = true ∧ k.length < 2 ^ 64) ∧
        valueWF w = true ∧ entriesWF t = true := by
      have : entriesWF ((k, w) :: t) =
          ((k.all (fun c => c < 256) && decide (k.length < 2 ^ 64)) &&
            valueWF w && entriesWF t) := by simp [entriesWF]
      rw [this] at hwf
      simp only [Bool.and_eq_true, decide_eq_true_eq] at hwf
      exact ⟨⟨hwf.1.1.1, hwf.1.1.2⟩, hwf.1.2, hwf.2⟩
    have hd1 : buf.drop idx =
        encode_bytes k ++ (encode_bencode w ++ (encodeEntries t ++ 101 :: rest)) := by
      rw [hd]
      simp [encodeEntries]
    obtain ⟨c, r, hcr, hcd⟩ : ∃ c r, encode_bytes k = c :: r ∧
        (48 ≤ c ∧ c ≤ 57) := by
      obtain ⟨c, t2, hct⟩ : ∃ c t2, natToDigitsAscii k.length = c :: t2 := by
        cases hl : natToDigitsAscii k.length with
        | nil => exact absurd hl (natToDigitsAscii_ne_nil _)
        | cons c t2 => exact ⟨c, t2, rfl⟩
      refine ⟨c, t2 ++ 58 :: k, ?_, mem_natToDigitsAscii
        (by rw [hct]; exact List.mem_cons_self c t2)⟩
      rw [encode_bytes_eq, hct]
      simp
    have hb : buf.getD idx 0 = c :=
      getD_of_drop (c := c)
        (t := r ++ (encode_bencode w ++ (encodeEntries t ++ 101 :: rest)))
        (by rw [hd1, hcr]; simp)
    have hlt : idx < buf.length :=
      lt_length_of_drop_cons (c := c)
        (t := r ++ (encode_bencode w ++ (encodeEntries t ++ 101 :: rest)))
        (by rw [hd1, hcr]; simp)
    have hk : parse_at buf idx = .ok (.bytes k, idx + (encode_bytes k).length) :=
      parse_at_drop_bytes hwfs.1.2 hd1
    have hdw : buf.drop (idx + (encode_bytes k).length) =
        encode_bencode w ++ (encodeEntries t ++ 101 :: rest) := by
      rw [drop_add_of_drop hd1 (encode_bytes k).length]
      exact List.drop_left _ _
    have hw : parse_at buf (idx + (encode_bytes k).length) =
        .ok (w, idx + (encode_bytes k).length + (encode_bencode w).length) :=
      ih w (hsz (k, w) (by simp)) hwfs.2.1 buf _ _ hdw
    rw [parseDictW_step hlt (by rw [hb]; omega) hk hw]
    have hd2 : buf.drop (idx + (encode_bytes k).length + (encode_bencode w).length) =
        encodeEntries t ++ 101 :: rest := by
      rw [drop_add_of_drop hdw (encode_bencode w).length]
      exact List.drop_left _ _
    rw [iht (fun q hq => hsz q (by simp [hq])) hwfs.2.2 buf _ rest
      (dictInsert k w acc) hd2]
    have h1 : insertAll (dictInsert k w acc) t = insertAll acc ((k, w) :: t) := by
      simp [insertAll]
    have h2 : idx + (encode_bytes k).length + (encode_bencode w).length +
        (encodeEntries t).length + 1 =
        idx + (encodeEntries ((k, w) :: t)).length + 1 := by
      simp only [encodeEntries, List.length_append]
      omega
    rw [h1, h2]

theorem parse_at_encode_sized : ∀ (n : Nat) (v : Bencode), sizeOf v ≤ n →
    valueWF v = true →
    ∀ (buf : List Nat) (idx : Nat) (rest : List Nat),
      buf.drop idx = encode_bencode v ++ rest →
      parse_at buf idx = .ok (v, idx + (encode_bencode v).length) := by
  intro n
  induction n with
  | zero =>
    intro v hsz
    exfalso
    cases v <;> simp at hsz <;> omega
  | succ n ih =>
    intro v hsz hwf buf idx rest hd
    cases v with
    | int i =>
      have hr : (-(2 ^ 63) ≤ i) ∧ i < 2 ^ 63 := by
        simp [valueWF] at hwf
        exact hwf
      exact parse_at_drop_int hr.1 hr.2 hd
    | bytes b =>
      have hlen : b.length < 2 ^ 64 := by
        simp [valueWF] at hwf
        exact hwf.2
      have hd' : buf.drop idx = encode_bytes b ++ rest := hd
      have := parse_at_drop_bytes hlen hd'
      exact this
    | list l =>
      have henc : encode_bencode (.list l) = 108 :: (encodeItems l ++ [101]) := by
        simp [encode_bencode]
      rw [henc] at hd
      simp only [List.cons_append] at hd
      have hb := getD_of_drop hd
      have hlt := lt_length_of_drop_cons hd
      have hwfl : itemsWF l = true := by
        simpa [valueWF] using hwf
      have hszl : ∀ w ∈ l, sizeOf w ≤ n := by
        intro w hwmem
        have h1 : sizeOf (Bencode.list l) = 1 + sizeOf l := by simp
        have h2 := List.sizeOf_lt_of_mem hwmem
        omega
      have hd1 : buf.drop (idx + 1) = encodeItems l ++ 101 :: rest := by
        rw [drop_add_of_drop hd 1]
        simp
      rw [parse_at_list_branch hlt hb]
      rw [parseListW_drop_items ih l hszl hwfl buf (idx + 1) rest [] hd1]
      rw [henc]
      simp only [List.reverse_nil, List.nil_append, List.length_cons,
        List.length_append, List.length_nil]
      congr 2
      omega
    | dict d =>
      have henc : encode_bencode (.dict d) = 100 :: (encodeEntries d ++ [101]) := by
        simp [encode_bencode]
      rw [henc] at hd
      simp only [List.cons_append] at hd
      have hb := getD_of_drop hd
      have hlt := lt_length_of_drop_cons hd
      have hwfd : entriesWF d = true ∧ keysSorted d := by
        have : valueWF (.dict d) = (entriesWF d && decide (keysSorted d)) := by
          simp [valueWF]
        rw [this] at hwf
        simp only [Bool.and_eq_true, decide_eq_true_eq] at hwf
        exact hwf
      have hszd : ∀ kv ∈ d, sizeOf kv.2 ≤ n := by
        intro kv hkv
        obtain ⟨k, w⟩ := kv
        have h1 : sizeOf (Bencode.dict d) = 1 + sizeOf d := by simp
        have h2 := List.sizeOf_lt_of_mem hkv
        have h3 : sizeOf (k, w) = 1 + sizeOf k + sizeOf w := by simp
        simp only
        omega
      have hd1 : buf.drop (idx + 1) = encodeEntries d ++ 101 :: rest := by
        rw [drop_add_of_drop hd 1]
        simp
      rw [parse_at_dict_branch hlt hb]
      rw [parseDictW_drop_entries ih d hszd hwfd.1 buf (idx + 1) rest [] hd1]
      have hia : insertAll [] d = d := fromPairs_of_sorted hwfd.2
      rw [hia, henc]
      simp only [List.length_cons, List.length_append, List.length_nil]
      congr 2
      omega

theorem parse_at_encode {v : Bencode} (hwf : valueWF v = true)
    {buf : List Nat} {idx : Nat} {rest : List Nat}
    (hd : buf.drop idx = encode_bencode v ++ rest) :
    parse_at buf idx = .ok (v, idx + (encode_bencode v).length) :=
  parse_at_encode_sized (sizeOf v) v (Nat.le_refl _) hwf buf idx rest hd

/-! ## Proper prefixes of encodings yield NeedMore -/

theorem le_of_drop_eq_nil {buf : List Nat} {idx : Nat}
    (h : buf.drop idx = []) : buf.length ≤ idx := by
  have := congrArg List.length h
  simp only [List.length_drop, List.length_nil] at this
  by_contra hlt
  omega

theorem length_of_drop_eq {buf : List Nat} {idx : Nat} {c : Nat} {q : List Nat}
    (h : buf.drop idx = c :: q) : buf.length = idx + q.length + 1 := by
  have h1 := lt_length_of_drop_cons h
  have h2 := congrArg List.length h
  simp only [List.length_drop, List.length_cons] at h2
  omega

theorem parse_at_pre_bytes {b : List Nat} (hblen : b.length < 2 ^ 64)
    {buf : List Nat} {idx : Nat} {p : List Nat}
    (hd : buf.drop idx = p) (hpre : p <+: encode_bytes b)
    (hne : p ≠ encode_bytes b) :
    parse_at buf idx = .error .needMore := by
  rcases p with _ | ⟨c, q⟩
  · exact parse_at_of_ge (le_of_drop_eq_nil hd)
  · have hlt : idx < buf.length := lt_length_of_drop_cons hd
    have hb : buf.getD idx 0 = c := getD_of_drop hd
    rw [encode_bytes_eq] at hpre hne
    have hla : natToDigitsAscii b.length ++ 58 :: b =
        (natToDigitsAscii b.length ++ [58]) ++ b := by simp
    by_cases hlen : (c :: q).length ≤ (natToDigitsAscii b.length).length
    · -- still inside the length digits: no separator in the buffer
      have hpla : c :: q <+: natToDigitsAscii b.length := by
        apply List.prefix_of_prefix_length_le hpre _ hlen
        exact ⟨58 :: b, rfl⟩
      have hcd : 48 ≤ c ∧ c ≤ 57 :=
        mem_natToDigitsAscii (hpla.sublist.subset (by simp))
      apply parse_at_bytes_needMore_scan hlt (by rw [hb]; exact hcd)
      apply scanFor_ge_length
      intro x hx
      rw [hd] at hx
      have := mem_natToDigitsAscii (hpla.sublist.subset hx)
      omega
    · -- the digits and separator are complete, payload is truncated
      have hlen2 : (natToDigitsAscii b.length).length < q.length + 1 := by
        simp only [List.length_cons] at hlen
        omega
      have hpla : (natToDigitsAscii b.length ++ [58]) <+: c :: q := by
        apply List.prefix_of_prefix_length_le _ hpre _
        · rw [hla]
          exact ⟨b, rfl⟩
        · simp only [List.length_append, List.length_cons, List.length_nil,
            List.length_singleton]
          omega
      obtain ⟨b2, hb2⟩ := hpla
      have hb2pre : b2 <+: b := by
        rw [hla] at hpre
        rw [← hb2] at hpre
        exact (List.prefix_append_right_inj _).mp hpre
      have hb2ne : b2.length < b.length := by
        have hlb : b2.length ≤ b.length := hb2pre.length_le
        rcases Nat.lt_or_ge b2.length b.length with h | h
        · exact h
        · exfalso
          have : b2 = b := List.IsPrefix.eq_of_length hb2pre (by omega)
          rw [hla, ← hb2, this] at hne
          exact hne rfl
      have hdrop : buf.drop idx = natToDigitsAscii b.length ++ 58 :: b2 := by
        rw [hd, ← hb2]
        simp
      have hcd : 48 ≤ c ∧ c ≤ 57 := by
        have : buf.getD idx 0 ∈ natToDigitsAscii b.length := by
          obtain ⟨c2, t2, hct⟩ : ∃ c2 t2,
              natToDigitsAscii b.length = c2 :: t2 := by
            cases hl : natToDigitsAscii b.length with
            | nil => exact absurd hl (natToDigitsAscii_ne_nil _)
            | cons c2 t2 => exact ⟨c2, t2, rfl⟩
          have : buf.getD idx 0 = c2 :=
            getD_of_drop (c := c2) (t := t2 ++ 58 :: b2)
              (by rw [hdrop, hct]; simp)
          rw [this, hct]
          exact List.mem_cons_self _ _
        rw [hb] at this
        exact mem_natToDigitsAscii this
      have hscan : scanFor buf 58 idx = idx + (natToDigitsAscii b.length).length :=
        scanFor_of_drop hdrop
          (fun x hx => by have := mem_natToDigitsAscii hx; omega)
      have hscanlt : scanFor buf 58 idx < buf.length := by
        have := length_of_drop_eq hd
        have hq : (c :: q).length = (natToDigitsAscii b.length).length +
            1 + b2.length := by
          rw [← hb2]
          simp only [List.length_append, List.length_cons, List.length_nil,
            List.length_singleton]
          try omega
        simp only [List.length_cons] at hq
        rw [hscan]
        omega
      have hslice : sliceOf buf idx (scanFor buf 58 idx) =
          natToDigitsAscii b.length := by
        rw [hscan]
        exact sliceOf_of_drop hdrop
      have hpl : parse_len (sliceOf buf idx (scanFor buf 58 idx)) =
          .ok b.length := by
        rw [hslice]
        exact parse_len_natToDigitsAscii hblen
      apply parse_at_bytes_needMore_fit hlt (by rw [hb]; exact hcd) hscanlt hpl
      have hlen2 := length_of_drop_eq hd
      have hq : (c :: q).length = (natToDigitsAscii b.length).length +
          1 + b2.length := by
        rw [← hb2]
        simp only [List.length_append, List.length_cons, List.length_nil,
          List.length_singleton]
        try omega
      simp only [List.length_cons] at hq
      rw [hscan]
      omega

theorem encode_bytes_head (k : List Nat) :
    ∃ c r, encode_bytes k = c :: r ∧ 48 ≤ c ∧ c ≤ 57 := by
  obtain ⟨c, t2, hct⟩ : ∃ c t2, natToDigitsAscii k.length = c :: t2 := by
    cases hl : natToDigitsAscii k.length with
    | nil => exact absurd hl (natToDigitsAscii_ne_nil _)
    | cons c t2 => exact ⟨c, t2, rfl⟩
  refine ⟨c, t2 ++ 58 :: k, ?_, mem_natToDigitsAscii
    (by rw [hct]; exact List.mem_cons_self c t2)⟩
  rw [encode_bytes_eq, hct]
  simp

theorem prefix_of_singleton {q : List Nat} {a : Nat} (h : q <+: [a])
    (hne : q ≠ [a]) : q = [] := by
  rcases q with _ | ⟨c, t⟩
  · rfl
  · exfalso
    obtain ⟨hc, ht⟩ := List.cons_prefix_cons.mp h
    subst hc
    have ht2 : t = [] := List.prefix_nil.mp ht
    subst ht2
    exact hne rfl

theorem parse_at_pre_int {i : Int} {buf : List Nat} {idx : Nat} {p : List Nat}
    (hd : buf.drop idx = p) (hpre : p <+: encode_bencode (.int i))
    (hne : p ≠ encode_bencode (.int i)) :
    parse_at buf idx = .error .needMore := by
  have henc : encode_bencode (.int i) = 105 :: (intToAscii i ++ [101]) := by
    simp [encode_bencode]
  rw [henc] at hpre hne
  rcases p with _ | ⟨c, q⟩
  · exact parse_at_of_ge (le_of_drop_eq_nil hd)
  · obtain ⟨hc, hq⟩ := List.cons_prefix_cons.mp hpre
    subst hc
    have hlt : idx < buf.length := lt_length_of_drop_cons hd
    have hb : buf.getD idx 0 = 105 := getD_of_drop hd
    have hqne : q ≠ intToAscii i ++ [101] := by
      intro h
      exact hne (by rw [h])
    have hq101 : ∀ x ∈ q, x ≠ 101 := by
      by_cases hlen : q.length ≤ (intToAscii i).length
      · have hqia : q <+: intToAscii i :=
          List.prefix_of_prefix_length_le hq ⟨[101], rfl⟩ hlen
        intro x hx
        rcases mem_intToAscii (hqia.sublist.subset hx) with h | h <;> omega
      · exfalso
        have hl2 := hq.length_le
        simp only [List.length_append, List.length_cons, List.length_nil] at hl2
        exact hqne (List.IsPrefix.eq_of_length hq (by
          simp only [List.length_append, List.length_cons, List.length_nil]
          omega))
    apply parse_at_int_needMore hlt hb
    apply scanFor_ge_length
    intro x hx
    have hdq : buf.drop (idx + 1) = q := by
      rw [drop_add_of_drop hd 1]
      rfl
    rw [hdq] at hx
    exact hq101 x hx

theorem parseListW_pre_items {n : Nat}
    (ihB : ∀ w : Bencode, sizeOf w ≤ n → valueWF w = true →
      ∀ (buf : List Nat) (idx : Nat) (p : List Nat), buf.drop idx = p →
        p <+: encode_bencode w → p ≠ encode_bencode w →
        parse_at buf idx = .error .needMore) :
    ∀ (l : List Bencode), (∀ v ∈ l, sizeOf v ≤ n) → itemsWF l = true →
    ∀ (buf : List Nat) (idx : Nat) (q : List Nat) (acc : List Bencode),
      buf.drop idx = q → q <+: encodeItems l ++ [101] →
      q ≠ encodeItems l ++ [101] →
      parseListW buf idx acc = .error .needMore := by
  intro l
  induction l with
  | nil =>
    intro _ _ buf idx q acc hd hpre hne
    simp only [encodeItems, List.nil_append] at hpre hne
    have hq : q = [] := prefix_of_singleton hpre hne
    subst hq
    exact parseListW_of_ge (le_of_drop_eq_nil hd)
  | cons v t iht =>
    intro hsz hwf buf idx q acc hd hpre hne
    have hwfs : valueWF v = true ∧ itemsWF t = true := by
      have : itemsWF (v :: t) = (valueWF v && itemsWF t) := by simp [itemsWF]
      rw [this] at hwf
      exact ⟨(Bool.and_eq_true _ _).mp hwf |>.1, (Bool.and_eq_true _ _).mp hwf |>.2⟩
    have hassoc : encodeItems (v :: t) ++ [101] =
        encode_bencode v ++ (encodeItems t ++ [101]) := by
      simp [encodeItems]
    rw [hassoc] at hpre hne
    rcases q with _ | ⟨c, q2⟩
    · exact parseListW_of_ge (le_of_drop_eq_nil hd)
    · obtain ⟨c0, r0, hcr, hne101, _⟩ := encode_head_spec v
      have hc : c = c0 := by
        rw [hcr] at hpre
        simp only [List.cons_append] at hpre
        exact (List.cons_prefix_cons.mp hpre).1
      have hc2 := hc.symm
      subst hc2
      have hlt : idx < buf.length := lt_length_of_drop_cons hd
      have hb : buf.getD idx 0 = c0 := getD_of_drop hd
      by_cases hcase : encode_bencode v <+: c0 :: q2
      · obtain ⟨q3, hq3⟩ := hcase
        have hq3pre : q3 <+: encodeItems t ++ [101] := by
          rw [← hq3] at hpre
          exact (List.prefix_append_right_inj _).mp hpre
        have hq3ne : q3 ≠ encodeItems t ++ [101] := by
          intro h
          rw [h] at hq3
          exact hne hq3.symm
        have hdd : buf.drop idx = encode_bencode v ++ q3 := by
          rw [hd, hq3]
        have hp : parse_at buf idx = .ok (v, idx + (encode_bencode v).length) :=
          parse_at_encode hwfs.1 hdd
        rw [parseListW_step_ok hlt (by rw [hb]; exact hne101) hp]
        have hd2 : buf.drop (idx + (encode_bencode v).length) = q3 := by
          rw [drop_add_of_drop hdd (encode_bencode v).length]
          exact List.drop_left _ _
        exact iht (fun w hw => hsz w (by simp [hw])) hwfs.2 buf _ q3
          (v :: acc) hd2 hq3pre hq3ne
      · have hqpre : c0 :: q2 <+: encode_bencode v := by
          rcases List.prefix_or_prefix_of_prefix hpre
            ⟨encodeItems t ++ [101], rfl⟩ with h | h
          · exact h
          · exact absurd h hcase
        have hqne : c0 :: q2 ≠ encode_bencode v := by
          intro h
          exact hcase (h ▸ List.prefix_refl _)
        have hp : parse_at buf idx = .error .needMore :=
          ihB v (hsz v (by simp)) hwfs.1 buf idx _ hd hqpre hqne
        exact parseListW_step_err hlt (by rw [hb]; exact hne101) hp

theorem parseDictW_pre_entries {n : Nat}
    (ihB : ∀ w : Bencode, sizeOf w ≤ n → valueWF w = true →
      ∀ (buf : List Nat) (idx : Nat) (p : List Nat), buf.drop idx = p →
        p <+: encode_bencode w → p ≠ encode_bencode w →
        parse_at buf idx = .error .needMore) :
    ∀ (d : List (List Nat × Bencode)), (∀ kv ∈ d, sizeOf kv.2 ≤ n) →
    entriesWF d = true →
    ∀ (buf : List Nat) (idx : Nat) (q : List Nat)
      (acc : List (List Nat × Bencode)),
      buf.drop idx = q → q <+: encodeEntries d ++ [101] →
      q ≠ encodeEntries d ++ [101] →
      parseDictW buf idx acc = .error .needMore := by
  intro d
  induction d with
  | nil =>
    intro _ _ buf idx q acc hd hpre hne
    simp only [encodeEntries, List.nil_append] at hpre hne
    have hq : q = [] := prefix_of_singleton hpre hne
    subst hq
    exact parseDictW_of_ge (le_of_drop_eq_nil hd)
  | cons kv t iht =>
    intro hsz hwf buf idx q acc hd hpre hne
    obtain ⟨k, w⟩ := kv
    have hwfs : (k.all (fun c => c < 256) = true ∧ k.length < 2 ^ 64) ∧
        valueWF w = true ∧ entriesWF t = true := by
      have : entriesWF ((k, w) :: t) =
          ((k.all (fun c => c < 256) && decide (k.length < 2 ^ 64)) &&
            valueWF w && entriesWF t) := by simp [entriesWF]
      rw [this] at hwf
      simp only [Bool.and_eq_true, decide_eq_true_eq] at hwf
      exact ⟨⟨hwf.1.1.1, hwf.1.1.2⟩, hwf.1.2, hwf.2⟩
    have hassoc : encodeEntries ((k, w) :: t) ++ [101] =
        encode_bytes k ++ (encode_bencode w ++ (encodeEntries t ++ [101])) := by
      simp [encodeEntries]
    rw [hassoc] at hpre hne
    rcases q with _ | ⟨c, q2⟩
    · exact parseDictW_of_ge (le_of_drop_eq_nil hd)
    · obtain ⟨c0, r0, hcr, hcd⟩ := encode_bytes_head k
      have hc : c = c0 := by
        rw [hcr] at hpre
        simp only [List.cons_append] at hpre
        exact (List.cons_prefix_cons.mp hpre).1
      have hc2 := hc.symm
      subst hc2
      have hlt : idx < buf.length := lt_length_of_drop_cons hd
      have hb : buf.getD idx 0 = c0 := getD_of_drop hd
      have hne101 : c0 ≠ 101 := by omega
      by_cases hcase : encode_bytes k <+: c0 :: q2
      · obtain ⟨q3, hq3⟩ := hcase
        have hq3pre : q3 <+: encode_bencode w ++ (encodeEntries t ++ [101]) := by
          rw [← hq3] at hpre
          exact (List.prefix_append_right_inj _).mp hpre
        have hdd : buf.drop idx = encode_bytes k ++ q3 := by
          rw [hd, hq3]
        have hk : parse_at buf idx =
            .ok (.bytes k, idx + (encode_bytes k).length) :=
          parse_at_drop_bytes hwfs.1.2 hdd
        have hd2 : buf.drop (idx + (encode_bytes k).length) = q3 := by
          rw [drop_add_of_drop hdd (encode_bytes k).length]
          exact List.drop_left _ _
        by_cases hcase2 : encode_bencode w <+: q3
        · obtain ⟨q4, hq4⟩ := hcase2
          have hq4pre : q4 <+: encodeEntries t ++ [101] := by
            rw [← hq4] at hq3pre
            exact (List.prefix_append_right_inj _).mp hq3pre
          have hq4ne : q4 ≠ encodeEntries t ++ [101] := by
            intro h
            rw [h] at hq4
            rw [← hq4] at hq3
            exact hne hq3.symm
          have hdw : buf.drop (idx + (encode_bytes k).length) =
              encode_bencode w ++ q4 := by
            rw [hd2, hq4]
          have hw : parse_at buf (idx + (encode_bytes k).length) =
              .ok (w, idx + (encode_bytes k).length +
                (encode_bencode w).length) :=
            parse_at_encode hwfs.2.1 hdw
          rw [parseDictW_step hlt (by rw [hb]; exact hne101) hk hw]
          have hd3 : buf.drop (idx + (encode_bytes k).length +
              (encode_bencode w).length) = q4 := by
            rw [drop_add_of_drop hdw (encode_bencode w).length]
            exact List.drop_left _ _
          exact iht (fun p hp => hsz p (by simp [hp])) hwfs.2.2 buf _ q4
            (dictInsert k w acc) hd3 hq4pre hq4ne
        · have hq3w : q3 <+: encode_bencode w := by
            rcases List.prefix_or_prefix_of_prefix hq3pre
              ⟨encodeEntries t ++ [101], rfl⟩ with h | h
            · exact h
            · exact absurd h hcase2
          have hq3wne : q3 ≠ encode_bencode w := by
            intro h
            exact hcase2 (h ▸ List.prefix_refl _)
          have hw : parse_at buf (idx + (encode_bytes k).length) =
              .error .needMore :=
            ihB w (hsz (k, w) (by simp)) hwfs.2.1 buf _ q3 hd2 hq3w hq3wne
          exact parseDictW_val_err hlt (by rw [hb]; exact hne101) hk hw
      · have hqpre : c0 :: q2 <+: encode_bytes k := by
          rcases List.prefix_or_prefix_of_prefix hpre
            ⟨encode_bencode w ++ (encodeEntries t ++ [101]), rfl⟩ with h | h
          · exact h
          · exact absurd h hcase
        have hqne : c0 :: q2 ≠ encode_bytes k := by
          intro h
          exact hcase (h ▸ List.prefix_refl _)
        have hp : parse_at buf idx = .error .needMore :=
          parse_at_pre_bytes hwfs.1.2 hd hqpre hqne
        exact parseDictW_key_err hlt (by rw [hb]; exact hne101) hp

theorem parse_at_pre_sized : ∀ (n : Nat) (v : Bencode), sizeOf v ≤ n →
    valueWF v = true →
    ∀ (buf : List Nat) (idx : Nat) (p : List Nat), buf.drop idx = p →
      p <+: encode_bencode v → p ≠ encode_bencode v →
      parse_at buf idx = .error .needMore := by
  intro n
  induction n with
  | zero =>
    intro v hsz
    exfalso
    cases v <;> simp at hsz <;> omega
  | succ n ih =>
    intro v hsz hwf buf idx p hd hpre hne
    cases v with
    | int i => exact parse_at_pre_int hd hpre hne
    | bytes b =>
      have hlen : b.length < 2 ^ 64 := by
        simp [valueWF] at hwf
        exact hwf.2
      exact parse_at_pre_bytes hlen hd hpre hne
    | list l =>
      have henc : encode_bencode (.list l) = 108 :: (encodeItems l ++ [101]) := by
        simp [encode_bencode]
      rw [henc] at hpre hne
      rcases p with _ | ⟨c, q⟩
      · exact parse_at_of_ge (le_of_drop_eq_nil hd)
      · obtain ⟨hc, hq⟩ := List.cons_prefix_cons.mp hpre
        subst hc
        have hlt : idx < buf.length := lt_length_of_drop_cons hd
        have hb : buf.getD idx 0 = 108 := getD_of_drop hd
        have hwfl : itemsWF l = true := by
          simpa [valueWF] using hwf
        have hszl : ∀ w ∈ l, sizeOf w ≤ n := by
          intro w hwmem
          have h1 : sizeOf (Bencode.list l) = 1 + sizeOf l := by simp
          have h2 := List.sizeOf_lt_of_mem hwmem
          omega
        have hqne : q ≠ encodeItems l ++ [101] := by
          intro h
          exact hne (by rw [h])
        have hdq : buf.drop (idx + 1) = q := by
          rw [drop_add_of_drop hd 1]
          rfl
        rw [parse_at_list_branch hlt hb]
        exact parseListW_pre_items ih l hszl hwfl buf (idx + 1) q [] hdq hq hqne
    | dict d =>
      have henc : encode_bencode (.dict d) = 100 :: (encodeEntries d ++ [101]) := by
        simp [encode_bencode]
      rw [henc] at hpre hne
      rcases p with _ | ⟨c, q⟩
      · exact parse_at_of_ge (le_of_drop_eq_nil hd)
      · obtain ⟨hc, hq⟩ := List.cons_prefix_cons.mp hpre
        subst hc
        have hlt : idx < buf.length := lt_length_of_drop_cons hd
        have hb : buf.getD idx 0 = 100 := getD_of_drop hd
        have hwfd : entriesWF d = true := by
          have : valueWF (.dict d) = (entriesWF d && decide (keysSorted d)) := by
            simp [valueWF]
          rw [this] at hwf
          exact ((Bool.and_eq_true _ _).mp hwf).1
        have hszd : ∀ kv ∈ d, sizeOf kv.2 ≤ n := by
          intro kv hkv
          obtain ⟨k, w⟩ := kv
          have h1 : sizeOf (Bencode.dict d) = 1 + sizeOf d := by simp
          have h2 := List.sizeOf_lt_of_mem hkv
          have h3 : sizeOf (k, w) = 1 + sizeOf k + sizeOf w := by simp
          simp only
          omega
        have hqne : q ≠ encodeEntries d ++ [101] := by
          intro h
          exact hne (by rw [h])
        have hdq : buf.drop (idx + 1) = q := by
          rw [drop_add_of_drop hd 1]
          rfl
        rw [parse_at_dict_branch hlt hb]
        exact parseDictW_pre_entries ih d hszd hwfd buf (idx + 1) q [] hdq hq hqne

theorem parse_at_pre {v : Bencode} (hwf : valueWF v = true)
    {buf : List Nat} {idx : Nat} {p : List Nat} (hd : buf.drop idx = p)
    (hpre : p <+: encode_bencode v) (hne : p ≠ encode_bencode v) :
    parse_at buf idx = .error .needMore :=
  parse_at_pre_sized (sizeOf v) v (Nat.le_refl _) hwf buf idx p hd hpre hne

/-! ## Unfolding the session drain loop -/

theorem drain_needMore {ext : Externals} {buf : List Nat} {e : Nat}
    (hp : parse_at buf 0 = .error .needMore) :
    drain ext buf e = ⟨[], e, buf, false⟩ := by
  unfold parse_at at hp
  rw [drain.eq_def]
  cases hs : parseAtB buf 0 with
  | error e2 =>
    rw [hs] at hp
    simp only [Except.map, Except.error.injEq] at hp
    subst hp
    rfl
  | ok s => rw [hs] at hp; simp [Except.map] at hp

theorem drain_invalid {ext : Externals} {buf : List Nat} {e : Nat} {m : String}
    (hp : parse_at buf 0 = .error (.invalid m)) (hne : buf.length ≠ 0) :
    drain ext buf e = drain ext (buf.drop 1) (e + 1) := by
  unfold parse_at at hp
  rw [drain.eq_def]
  cases hs : parseAtB buf 0 with
  | error e2 =>
    rw [hs] at hp
    simp only [Except.map, Except.error.injEq] at hp
    subst hp
    dsimp only
    rw [dif_neg hne]
  | ok s => rw [hs] at hp; simp [Except.map] at hp

theorem drain_ok {ext : Externals} {buf : List Nat} {e : Nat} {msg : Bencode}
    {used : Nat} (hp : parse_at buf 0 = .ok (msg, used)) :
    drain ext buf e =
      if shutdownCheck msg then ⟨[], e, buf.drop used, true⟩
      else ⟨handle_message ext msg ++ (drain ext (buf.drop used) e).writes,
            (drain ext (buf.drop used) e).errors,
            (drain ext (buf.drop used) e).leftover,
            (drain ext (buf.drop used) e).stopped⟩ := by
  unfold parse_at at hp
  rw [drain.eq_def]
  cases hs : parseAtB buf 0 with
  | error e2 => rw [hs] at hp; simp [Except.map] at hp
  | ok s =>
    rw [hs] at hp
    simp only [Except.map, Except.ok.injEq] at hp
    obtain ⟨⟨m2, u2⟩, hsp⟩ := s
    simp only at hp
    cases hp
    rfl

theorem drain_encode {ext : Externals} {v : Bencode} (hwf : valueWF v = true)
    (rest : List Nat) (e : Nat) :
    drain ext (encode_bencode v ++ rest) e =
      if shutdownCheck v then ⟨[], e, rest, true⟩
      else ⟨handle_message ext v ++ (drain ext rest e).writes,
            (drain ext rest e).errors,
            (drain ext rest e).leftover,
            (drain ext rest e).stopped⟩ := by
  have hp : parse_at (encode_bencode v ++ rest) 0 =
      .ok (v, 0 + (encode_bencode v).length) :=
    parse_at_encode hwf (show (encode_bencode v ++ rest).drop 0 =
      encode_bencode v ++ rest from by simp)
  rw [Nat.zero_add] at hp
  rw [drain_ok hp]
  simp only [List.drop_left]

theorem drain_empty {ext : Externals} {e : Nat} :
    drain ext [] e = ⟨[], e, [], false⟩ :=
  drain_needMore (parse_at_of_ge (by simp))

theorem drain_encode_skip {ext : Externals} {v : Bencode}
    (hwf : valueWF v = true) (hsd : shutdownCheck v = false)
    (hmsg : handle_message ext v = []) (rest : List Nat) (e : Nat) :
    drain ext (encode_bencode v ++ rest) e = drain ext rest e := by
  rw [drain_encode hwf rest e, hsd, if_neg (by simp), hmsg]
  simp only [List.nil_append]

/-! ## Canonical map encoding: insertion order invariance -/

theorem mem_dictInsert {k : List Nat} {v : Bencode} :
    ∀ {d : List (List Nat × Bencode)} {x : List Nat × Bencode},
    x ∈ dictInsert k v d → x = (k, v) ∨ x ∈ d := by
  intro d
  induction d with
  | nil =>
    intro x hx
    simp only [dictInsert, List.mem_singleton] at hx
    exact Or.inl hx
  | cons p t ih =>
    intro x hx
    obtain ⟨k1, v1⟩ := p
    simp only [dictInsert] at hx
    cases hcmp : lexCompare k k1 with
    | lt =>
      rw [hcmp] at hx
      simp only [List.mem_cons] at hx
      rcases hx with h | h | h
      · exact Or.inl h
      · exact Or.inr (by simp [h])
      · exact Or.inr (by simp [h])
    | eq =>
      rw [hcmp] at hx
      simp only [List.mem_cons] at hx
      rcases hx with h | h
      · exact Or.inl h
      · exact Or.inr (by simp [h])
    | gt =>
      rw [hcmp] at hx
      simp only [List.mem_cons] at hx
      rcases hx with h | h
      · exact Or.inr (by simp [h])
      · rcases ih h with h2 | h2
        · exact Or.inl h2
        · exact Or.inr (by simp [h2])

theorem dictInsert_keysSorted {k : List Nat} {v : Bencode} :
    ∀ {d : List (List Nat × Bencode)}, keysSorted d →
    keysSorted (dictInsert k v d) := by
  intro d
  induction d with
  | nil =>
    intro _
    simp [dictInsert, keysSorted]
  | cons p t ih =>
    intro h
    obtain ⟨k1, v1⟩ := p
    rw [keysSorted, List.pairwise_cons] at h
    obtain ⟨hhead, htail⟩ := h
    simp only [dictInsert]
    cases hcmp : lexCompare k k1 with
    | lt =>
      rw [keysSorted, List.pairwise_cons]
      constructor
      · intro q hq
        simp only [List.mem_cons] at hq
        rcases hq with h | h
        · rw [h]
          exact hcmp
        · exact lexCompare_trans_lt _ _ _ hcmp (hhead q h)
      · rw [List.pairwise_cons]
        exact ⟨hhead, htail⟩
    | eq =>
      have hk : k = k1 := (lexCompare_eq_iff k k1).mp hcmp
      rw [keysSorted, List.pairwise_cons]
      constructor
      · intro q hq
        rw [hk]
        exact hhead q hq
      · exact htail
    | gt =>
      rw [keysSorted, List.pairwise_cons]
      constructor
      · intro q hq
        rcases mem_dictInsert hq with h | h
        · rw [h]
          exact (lexCompare_lt_iff_gt k1 k).mpr hcmp
        · exact hhead q h
      · exact ih htail

theorem dictInsert_perm {k : List Nat} {v : Bencode} :
    ∀ {d : List (List Nat × Bencode)}, (∀ p ∈ d, p.1 ≠ k) →
    (dictInsert k v d).Perm ((k, v) :: d) := by
  intro d
  induction d with
  | nil => intro _; exact List.Perm.refl _
  | cons p t ih =>
    intro h
    obtain ⟨k1, v1⟩ := p
    simp only [dictInsert]
    cases hcmp : lexCompare k k1 with
    | lt => exact List.Perm.refl _
    | eq =>
      exfalso
      have hk : k = k1 := (lexCompare_eq_iff k k1).mp hcmp
      exact h (k1, v1) (by simp) hk.symm
    | gt =>
      have ih2 : (dictInsert k v t).Perm ((k, v) :: t) :=
        ih (fun q hq => h q (by simp [hq]))
      exact (List.Perm.cons _ ih2).trans (List.Perm.swap _ _ _)

theorem insertAll_perm :
    ∀ (l acc : List (List Nat × Bencode)),
    (l.map Prod.fst ++ acc.map Prod.fst).Nodup →
    (insertAll acc l).Perm (acc ++ l) := by
  intro l
  induction l with
  | nil => intro acc _; simp [insertAll]
  | cons p t ih =>
    intro acc hnd
    obtain ⟨k, v⟩ := p
    have hstep : insertAll acc ((k, v) :: t) = insertAll (dictInsert k v acc) t := by
      simp [insertAll]
    have hknotacc : ∀ q ∈ acc, q.1 ≠ k := by
      intro q hq hqk
      simp only [List.map_cons, List.cons_append, List.nodup_cons] at hnd
      exact hnd.1 (by
        rw [List.mem_append]
        exact Or.inr (List.mem_map.mpr ⟨q, hq, hqk⟩))
    have hperm1 : (dictInsert k v acc).Perm ((k, v) :: acc) :=
      dictInsert_perm hknotacc
    have hnd2 : (t.map Prod.fst ++ (dictInsert k v acc).map Prod.fst).Nodup := by
      have hmapperm : ((dictInsert k v acc).map Prod.fst).Perm
          (k :: acc.map Prod.fst) := by
        have := hperm1.map Prod.fst
        simpa using this
      have hperm2 : (t.map Prod.fst ++ (dictInsert k v acc).map Prod.fst).Perm
          (k :: (t.map Prod.fst ++ acc.map Prod.fst)) :=
        (List.Perm.append_left _ hmapperm).trans List.perm_middle
      rw [hperm2.nodup_iff]
      simpa using hnd
    have hih : (insertAll (dictInsert k v acc) t).Perm (dictInsert k v acc ++ t) :=
      ih (dictInsert k v acc) hnd2
    rw [hstep]
    exact (hih.trans (hperm1.append_right t)).trans List.perm_middle.symm

theorem insertAll_keysSorted :
    ∀ (l acc : List (List Nat × Bencode)), keysSorted acc →
    keysSorted (insertAll acc l) := by
  intro l
  induction l with
  | nil => intro acc h; simpa [insertAll] using h
  | cons p t ih =>
    intro acc h
    obtain ⟨k, v⟩ := p
    have hstep : insertAll acc ((k, v) :: t) = insertAll (dictInsert k v acc) t := by
      simp [insertAll]
    rw [hstep]
    exact ih _ (dictInsert_keysSorted h)

theorem fromPairs_keysSorted (l : List (List Nat × Bencode)) :
    keysSorted (fromPairs l) :=
  insertAll_keysSorted l [] (by simp [keysSorted])

theorem sorted_eq_of_perm :
    ∀ {l₁ l₂ : List (List Nat × Bencode)}, l₁.Perm l₂ →
    keysSorted l₁ → keysSorted l₂ → l₁ = l₂ := by
  intro l₁
  induction l₁ with
  | nil =>
    intro l₂ h _ _
    exact (h.symm.eq_nil).symm
  | cons p t₁ ih =>
    intro l₂ h hs1 hs2
    cases l₂ with
    | nil =>
      exfalso
      have := h.length_eq
      simp at this
    | cons q t₂ =>
      have hpq : p = q := by
        have hp2 : p ∈ q :: t₂ := h.mem_iff.mp (List.mem_cons_self _ _)
        have hq1 : q ∈ p :: t₁ := h.symm.mem_iff.mp (List.mem_cons_self _ _)
        rcases List.mem_cons.mp hp2 with h1 | h1
        · exact h1
        · rcases List.mem_cons.mp hq1 with h2 | h2
          · exact h2.symm
          · exfalso
            rw [keysSorted, List.pairwise_cons] at hs1 hs2
            have hr1 : lexCompare p.1 q.1 = .lt := hs1.1 q h2
            have hr2 : lexCompare q.1 p.1 = .lt := hs2.1 p h1
            rw [lexCompare_lt_iff_gt] at hr2
            rw [hr1] at hr2
            exact absurd hr2 (by simp)
      subst hpq
      have htperm : t₁.Perm t₂ := h.cons_inv
      rw [keysSorted, List.pairwise_cons] at hs1 hs2
      rw [ih htperm hs1.2 hs2.2]

/-! ## Facts about the dispatcher and the symmetric check -/

theorem mem_range_drop {n i j : Nat} : j ∈ (List.range n).drop i ↔ i ≤ j ∧ j < n := by
  constructor
  · intro h
    obtain ⟨k, hk, hkj⟩ := List.getElem_of_mem h
    rw [List.getElem_drop] at hkj
    have hlen : (List.range n).length = n := List.length_range n
    have hik : i + k < n := by
      have := hk
      simp only [List.length_drop, hlen] at this
      omega
    rw [List.getElem_range] at hkj
    omega
  · intro ⟨h1, h2⟩
    rw [List.mem_iff_getElem]
    refine ⟨j - i, ?_, ?_⟩
    · simp only [List.length_drop, List.length_range]
      omega
    · rw [List.getElem_drop, List.getElem_range]
      omega

theorem check_symmetric_eq_true_iff (m : List ℚ) (eps : ℚ) :
    check_symmetric m eps = true ↔
      ∀ i j : Nat, i < 6 → j < 6 → i < j →
        |entryAt m i j - entryAt m j i| ≤ eps := by
  unfold check_symmetric
  rw [List.all_eq_true]
  constructor
  · intro h i j hi hj hij
    have h1 := h i (List.mem_range.mpr hi)
    rw [List.all_eq_true] at h1
    have h2 := h1 j (mem_range_drop.mpr ⟨by omega, hj⟩)
    simpa using h2
  · intro h x hx
    rw [List.all_eq_true]
    intro j hj
    have hxr := List.mem_range.mp hx
    have hjd := mem_range_drop.mp hj
    simpa using h x j hxr hjd.2 (by omega)

theorem check_symmetric_eq_false_iff (m : List ℚ) (eps : ℚ) :
    check_symmetric m eps = false ↔
      ∃ i j : Nat, i < 6 ∧ j < 6 ∧ i < j ∧
        eps < |entryAt m i j - entryAt m j i| := by
  rw [Bool.eq_false_iff, ne_eq, check_symmetric_eq_true_iff]
  push_neg
  rfl

theorem handle_invoke_missing_args {ext : Externals}
    {d : List (List Nat × Bencode)}
    (hvar : (dict_get d (strBytes "var")).bind bencode_str =
      some (strBytes "pod.eigs/eigenvalues"))
    (hargs : argBytes (dict_get d (strBytes "args")) = none) :
    handle_invoke ext d = write_error (dict_get d (strBytes "id")) "missing args" := by
  simp only [handle_invoke, hvar, hargs]
  rw [if_neg (by simp)]

theorem handle_invoke_sym_fail {ext : Externals}
    {d : List (List Nat × Bencode)} {ab : List Nat} {j input : Json}
    {matrix : List ℚ}
    (hvar : (dict_get d (strBytes "var")).bind bencode_str =
      some (strBytes "pod.eigs/eigenvalues"))
    (hargs : argBytes (dict_get d (strBytes "args")) = some ab)
    (hjson : ext.jsonParse ab = some j)
    (hunwrap : unwrapSingle j = .ok input)
    (hbuild : build_matrix input = .ok (matrix, true))
    (hcheck : check_symmetric matrix (1 / 10 ^ 9) = false) :
    handle_invoke ext d =
      write_error (dict_get d (strBytes "id"))
        "matrix is not symmetric within epsilon" := by
  have heig : eigenvalues_for ext matrix true =
      .error "matrix is not symmetric within epsilon" := by
    unfold eigenvalues_for
    rw [if_pos rfl, hcheck]
    rfl
  simp only [handle_invoke, hvar, hargs, hjson, hunwrap, hbuild, heig]
  rw [if_neg (by simp)]

theorem shutdownCheck_of_op {d : List (List Nat × Bencode)} {b : List Nat}
    (hop : dict_get d (strBytes "op") = some (.bytes b))
    (hne : b ≠ strBytes "shutdown") :
    shutdownCheck (.dict d) = false := by
  simp only [shutdownCheck, hop]
  exact decide_eq_false hne

theorem handle_message_silent {ext : Externals} {msg : Bencode}
    (h : (∀ d, msg ≠ .dict d) ∨
      (∃ d, msg = .dict d ∧
        (dict_get d (strBytes "op") = none ∨
         (∃ v, dict_get d (strBytes "op") = some v ∧ ∀ b, v ≠ .bytes b) ∨
         (∃ b, dict_get d (strBytes "op") = some (.bytes b) ∧
           b ≠ strBytes "describe" ∧ b ≠ strBytes "invoke" ∧
           b ≠ strBytes "shutdown")))) :
    handle_message ext msg = [] ∧ shutdownCheck msg = false := by
  rcases h with h | ⟨d, hd, hop⟩
  · constructor
    · cases msg with
      | dict d => exact absurd rfl (h d)
      | int i => rfl
      | bytes b => rfl
      | list l => rfl
    · cases msg with
      | dict d => exact absurd rfl (h d)
      | int i => rfl
      | bytes b => rfl
      | list l => rfl
  · subst hd
    have hdesc : strBytes "describe" ≠ ([] : List Nat) := by decide
    have hinv : strBytes "invoke" ≠ ([] : List Nat) := by decide
    have hshut : strBytes "shutdown" ≠ ([] : List Nat) := by decide
    rcases hop with hn | ⟨v, hv, hnb⟩ | ⟨b, hb, h1, h2, h3⟩
    · constructor
      · simp only [handle_message, hn, Option.bind, Option.getD]
        rw [if_neg (fun h => hdesc h.symm), if_neg (fun h => hinv h.symm),
          if_neg (fun h => hshut h.symm)]
      · simp [shutdownCheck, hn]
    · have hbs : bencode_str v = none := by
        cases v with
        | bytes b => exact absurd rfl (hnb b)
        | int i => rfl
        | list l => rfl
        | dict d2 => rfl
      constructor
      · simp only [handle_message, hv, Option.bind, hbs, Option.getD]
        rw [if_neg (fun h => hdesc h.symm), if_neg (fun h => hinv h.symm),
          if_neg (fun h => hshut h.symm)]
      · cases v with
        | bytes b => exact absurd rfl (hnb b)
        | int i => simp [shutdownCheck, hv]
        | list l => simp [shutdownCheck, hv]
        | dict d2 => simp [shutdownCheck, hv]
    · constructor
      · by_cases hu : validUtf8 b = true
        · have hbs : bencode_str (.bytes b) = some b := by
            simp [bencode_str, hu]
          simp only [handle_message, hb, Option.bind, hbs, Option.getD]
          rw [if_neg h1, if_neg h2, if_neg h3]
        · have hbs : bencode_str (.bytes b) = none := by
            simp only [bencode_str]
            rw [if_neg hu]
          simp only [handle_message, hb, Option.bind, hbs, Option.getD]
          rw [if_neg (fun h => hdesc h.symm), if_neg (fun h => hinv h.symm),
            if_neg (fun h => hshut h.symm)]
      · exact shutdownCheck_of_op hb h3

/-! ## Incremental feeding -/

theorem incrParse_aux {v : Bencode} (hwf : valueWF v = true) :
    ∀ (chunks : List (List Nat)) (buf s : List Nat),
      buf ++ chunks.join = encode_bencode v ++ s →
      incrParse buf chunks = .ok (v, (encode_bencode v).length) := by
  intro chunks
  induction chunks with
  | nil =>
    intro buf s h
    simp only [List.join_nil, List.append_nil] at h
    simp only [incrParse]
    have hp := parse_at_encode hwf
      (show buf.drop 0 = encode_bencode v ++ s from by simpa using h)
    simpa using hp
  | cons c cs ih =>
    intro buf s h
    simp only [incrParse]
    by_cases hcase : encode_bencode v <+: buf
    · obtain ⟨s2, hs2⟩ := hcase
      have hp := parse_at_encode hwf
        (show buf.drop 0 = encode_bencode v ++ s2 from by simp [hs2.symm])
      rw [hp]
      simp
    · have hbufpre : buf <+: encode_bencode v ++ s := ⟨(c :: cs).join, h⟩
      have hor := List.prefix_or_prefix_of_prefix hbufpre ⟨s, rfl⟩
      have hbpre : buf <+: encode_bencode v := by
        rcases hor with h2 | h2
        · exact h2
        · exact absurd h2 hcase
      have hbne : buf ≠ encode_bencode v := fun he =>
        hcase (he ▸ List.prefix_refl _)
      have hnm : parse_at buf 0 = .error .needMore :=
        parse_at_pre hwf (p := buf) (by simp) hbpre hbne
      rw [hnm]
      apply ih (buf ++ c) s
      rw [List.append_assoc]
      simpa using h

theorem incrParse_chunks {v : Bencode} (hwf : valueWF v = true)
    (chunks : List (List Nat)) (s : List Nat)
    (hjoin : chunks.join = encode_bencode v ++ s) :
    incrParse [] chunks = .ok (v, (encode_bencode v).length) :=
  incrParse_aux hwf chunks [] s (by simpa using hjoin)

/-! ## The claims -/

/-- C1: Round-trip of the codec: for every representable value `v`
(integer in `i64` range, byte string, list, key-sorted map), parsing the
bytes of `encode_bencode v` from offset 0 succeeds and yields exactly `v`
with consumed length the length of the encoding; consequently
`encode_bencode` is injective on representable values. -/
theorem claim_C1 :
    (∀ v : Bencode, valueWF v = true →
      parse_at (encode_bencode v) 0 = .ok (v, (encode_bencode v).length)) ∧
    (∀ v w : Bencode, valueWF v = true → valueWF w = true →
      encode_bencode v = encode_bencode w → v = w) := by
  have hrt : ∀ v : Bencode, valueWF v = true →
      parse_at (encode_bencode v) 0 = .ok (v, (encode_bencode v).length) := by
    intro v hwf
    have := parse_at_encode hwf
      (show (encode_bencode v).drop 0 = encode_bencode v ++ [] from by simp)
    simpa using this
  refine ⟨hrt, ?_⟩
  intro v w hv hw he
  have h1 := hrt v hv
  have h2 := hrt w hw
  rw [he] at h1
  rw [h1] at h2
  simp only [Except.ok.injEq, Prod.mk.injEq] at h2
  exact h2.1

theorem claim_C1_witness :
    parse_at (encode_bencode (.list [.int 42, .bytes [104, 105]])) 0 =
      .ok (.list [.int 42, .bytes [104, 105]],
        (encode_bencode (.list [.int 42, .bytes [104, 105]])).length) ∧
    (encode_bencode (.int 7) = encode_bencode (.int 7) →
      Bencode.int 7 = .int 7) :=
  ⟨claim_C1.1 _ (by decide), claim_C1.2 (.int 7) (.int 7) (by decide) (by decide)⟩

/-- C2: Incremental-parse soundness: every proper prefix of an encoding
yields `NeedMore` (never `Malformed`); the encoding followed by any suffix
parses to exactly the value with consumed length exactly the encoding
length, never consuming suffix bytes; hence feeding the bytes in
arbitrary chunks yields the same value and consumed length as feeding
them whole. -/
theorem claim_C2 :
    (∀ v : Bencode, valueWF v = true → ∀ p : List Nat,
      p <+: encode_bencode v → p ≠ encode_bencode v →
      parse_at p 0 = .error .needMore) ∧
    (∀ v : Bencode, valueWF v = true → ∀ s : List Nat,
      parse_at (encode_bencode v ++ s) 0 = .ok (v, (encode_bencode v).length)) ∧
    (∀ v : Bencode, valueWF v = true →
      ∀ (chunks : List (List Nat)) (s : List Nat),
      chunks.join = encode_bencode v ++ s →
      incrParse [] chunks = .ok (v, (encode_bencode v).length)) := by
  refine ⟨?_, ?_, ?_⟩
  · intro v hwf p hpre hne
    exact parse_at_pre hwf (show p.drop 0 = p from by simp) hpre hne
  · intro v hwf s
    have := parse_at_encode hwf
      (show (encode_bencode v ++ s).drop 0 = encode_bencode v ++ s from by simp)
    simpa using this
  · intro v hwf chunks s hj
    exact incrParse_chunks hwf chunks s hj

theorem claim_C2_witness :
    parse_at [105, 52] 0 = .error .needMore ∧
    parse_at (encode_bencode (.int 42) ++ [0]) 0 =
      .ok (.int 42, (encode_bencode (.int 42)).length) ∧
    incrParse [] [[105], [52], [50, 101]] =
      .ok (.int 42, (encode_bencode (.int 42)).length) :=
  ⟨claim_C2.1 (.int 42) (by decide) [105, 52] (by decide) (by decide),
   claim_C2.2.1 (.int 42) (by decide) [0],
   claim_C2.2.2 (.int 42) (by decide) [[105], [52], [50, 101]] [] (by decide)⟩

/-- C3: Resynchronization: whenever the parse of the buffer front is
`Malformed`, the drain loop drops exactly one byte from the nonempty
buffer, increments the error counter by exactly one, and retries; for a
buffer of one non-value byte followed by a valid encoded message, the
parse sequence is exactly one `Malformed` then a `Complete` of that
message, and the counter increases by exactly 1. -/
theorem claim_C3 (ext : Externals) (x : Nat) (v : Bencode) (e : Nat)
    (hx1 : x ≠ 105) (hx2 : x ≠ 108) (hx3 : x ≠ 100)
    (hx4 : ¬(48 ≤ x ∧ x ≤ 57))
    (hwf : valueWF v = true) (hsd : shutdownCheck v = false) :
    (∀ (buf : List Nat) (m : String) (e2 : Nat),
      parse_at buf 0 = .error (.invalid m) → buf ≠ [] →
      drain ext buf e2 = drain ext (buf.drop 1) (e2 + 1)) ∧
    parse_at (x :: encode_bencode v) 0 =
      .error (.invalid "invalid bencode prefix") ∧
    parse_at (encode_bencode v) 0 = .ok (v, (encode_bencode v).length) ∧
    drain ext (x :: encode_bencode v) e =
      ⟨handle_message ext v, e + 1, [], false⟩ := by
  have hb0 : (x :: encode_bencode v).getD 0 0 = x := by simp
  have hinv : parse_at (x :: encode_bencode v) 0 =
      .error (.invalid "invalid bencode prefix") := by
    apply parse_at_invalid_start (by simp) <;> rw [hb0]
    · exact hx1
    · exact hx2
    · exact hx3
    · exact hx4
  have hok : parse_at (encode_bencode v) 0 = .ok (v, (encode_bencode v).length) := by
    have := parse_at_encode hwf
      (show (encode_bencode v).drop 0 = encode_bencode v ++ [] from by simp)
    simpa using this
  refine ⟨?_, hinv, hok, ?_⟩
  · intro buf m e2 hp hne
    exact drain_invalid hp (fun h0 => hne (List.length_eq_zero.mp h0))
  · rw [drain_invalid hinv (by simp)]
    have hdrop : (x :: encode_bencode v).drop 1 = encode_bencode v := rfl
    rw [hdrop]
    have hde := @drain_encode ext v hwf [] (e + 1)
    rw [List.append_nil] at hde
    rw [hde, hsd, if_neg (by simp), drain_empty]
    simp

theorem claim_C3_witness :
    parse_at (120 :: encode_bencode (.int 5)) 0 =
      .error (.invalid "invalid bencode prefix") ∧
    drain ⟨fun _ => none, fun _ => none, fun _ => [], fun _ => none⟩
        (120 :: encode_bencode (.int 5)) 0 =
      ⟨handle_message ⟨fun _ => none, fun _ => none, fun _ => [], fun _ => none⟩
        (.int 5), 1, [], false⟩ :=
  ⟨(claim_C3 ⟨fun _ => none, fun _ => none, fun _ => [], fun _ => none⟩
      120 (.int 5) 0 (by decide) (by decide) (by decide) (by decide)
      (by decide) (by decide)).2.1,
   (claim_C3 ⟨fun _ => none, fun _ => none, fun _ => [], fun _ => none⟩
      120 (.int 5) 0 (by decide) (by decide) (by decide) (by decide)
      (by decide) (by decide)).2.2.2⟩

/-- C4: Shutdown precedence: when the message at the buffer front is a
dict whose `op` key holds the bytes `b"shutdown"`, the drain loop
terminates immediately: it writes nothing, leaves the counter unchanged,
and neither parses nor responds to the bytes after that message. -/
theorem claim_C4 (ext : Externals) (d : List (List Nat × Bencode))
    (rest : List Nat) (e : Nat)
    (hwf : valueWF (.dict d) = true)
    (hop : dict_get d (strBytes "op") = some (.bytes (strBytes "shutdown"))) :
    drain ext (encode_bencode (.dict d) ++ rest) e = ⟨[], e, rest, true⟩ := by
  have hsd : shutdownCheck (.dict d) = true := by
    simp [shutdownCheck, hop]
  rw [drain_encode hwf rest e, hsd, if_pos rfl]

theorem claim_C4_witness :
    drain ⟨fun _ => none, fun _ => none, fun _ => [], fun _ => none⟩
      (encode_bencode (.dict [(strBytes "op", .bytes (strBytes "shutdown"))]) ++
        [1, 2, 3]) 5 = ⟨[], 5, [1, 2, 3], true⟩ :=
  claim_C4 ⟨fun _ => none, fun _ => none, fun _ => [], fun _ => none⟩
    [(strBytes "op", .bytes (strBytes "shutdown"))] [1, 2, 3] 5
    (by decide) rfl

/-- C5: Canonical map encoding: a map built by inserting key/value pairs
holds its keys in strictly ascending byte-lexicographic order, the
encoder emits each key's bytes-encoding immediately followed by its
value's encoding between the `d`/`e` markers in that stored order, and
any two maps built from the same key/value pairs in any insertion order
are equal and produce identical byte sequences. -/
theorem claim_C5 (l1 l2 : List (List Nat × Bencode))
    (hnd : (l1.map Prod.fst).Nodup) (hperm : l1.Perm l2) :
    fromPairs l1 = fromPairs l2 ∧
    keysSorted (fromPairs l1) ∧
    encode_bencode (.dict (fromPairs l1)) =
      encode_bencode (.dict (fromPairs l2)) ∧
    (∀ d : List (List Nat × Bencode),
      encode_bencode (.dict d) = 100 :: (encodeEntries d ++ [101]) ∧
      ∀ (k : List Nat) (v : Bencode) (t : List (List Nat × Bencode)),
        encodeEntries ((k, v) :: t) =
          encode_bytes k ++ encode_bencode v ++ encodeEntries t) := by
  have hnd2 : (l2.map Prod.fst).Nodup := ((hperm.map Prod.fst).nodup_iff).mp hnd
  have hp1 : (fromPairs l1).Perm l1 := insertAll_perm l1 [] (by simpa using hnd)
  have hp2 : (fromPairs l2).Perm l2 := insertAll_perm l2 [] (by simpa using hnd2)
  have heq : fromPairs l1 = fromPairs l2 :=
    sorted_eq_of_perm ((hp1.trans hperm).trans hp2.symm)
      (fromPairs_keysSorted l1) (fromPairs_keysSorted l2)
  exact ⟨heq, fromPairs_keysSorted l1, by rw [heq],
    fun d => ⟨by simp [encode_bencode],
      fun k v t => by simp [encodeEntries, List.append_assoc]⟩⟩

theorem claim_C5_witness :
    fromPairs [(strBytes "b", .int 2), (strBytes "a", .int 1)] =
      fromPairs [(strBytes "a", .int 1), (strBytes "b", .int 2)] ∧
    keysSorted (fromPairs [(strBytes "b", .int 2), (strBytes "a", .int 1)]) ∧
    encode_bencode (.dict (fromPairs [(strBytes "b", .int 2),
        (strBytes "a", .int 1)])) =
      encode_bencode (.dict (fromPairs [(strBytes "a", .int 1),
        (strBytes "b", .int 2)])) ∧
    (∀ d : List (List Nat × Bencode),
      encode_bencode (.dict d) = 100 :: (encodeEntries d ++ [101]) ∧
      ∀ (k : List Nat) (v : Bencode) (t : List (List Nat × Bencode)),
        encodeEntries ((k, v) :: t) =
          encode_bytes k ++ encode_bencode v ++ encodeEntries t) :=
  claim_C5 [(strBytes "b", .int 2), (strBytes "a", .int 1)]
    [(strBytes "a", .int 1), (strBytes "b", .int 2)]
    (by decide) (List.Perm.swap _ _ _)

/-- C6: Map-key policy during decode: a map whose (first) key parses as a
non-byte-string value is rejected as `Malformed` with reason
`dict key must be bytes`; a map encoding repeating the same byte-string
key parses successfully with the later occurrence's value overwriting the
earlier one (last-write-wins). -/
theorem claim_C6 :
    (∀ (k : Bencode) (suffix : List Nat), valueWF k = true →
      (∀ kb, k ≠ .bytes kb) →
      parse_at (100 :: (encode_bencode k ++ suffix)) 0 =
        .error (.invalid "dict key must be bytes")) ∧
    (∀ (key : List Nat) (v1 v2 : Bencode),
      key.all (fun c => c < 256) = true → key.length < 2 ^ 64 →
      valueWF v1 = true → valueWF v2 = true →
      parse_at (100 :: (encode_bytes key ++ (encode_bencode v1 ++
        (encode_bytes key ++ (encode_bencode v2 ++ [101]))))) 0 =
      .ok (.dict [(key, v2)],
        (100 :: (encode_bytes key ++ (encode_bencode v1 ++
          (encode_bytes key ++ (encode_bencode v2 ++ [101]))))).length)) := by
  constructor
  · intro k suffix hwf hnb
    obtain ⟨c, r, hcr, hne101, _⟩ := encode_head_spec k
    have hlt : (0 : Nat) < (100 :: (encode_bencode k ++ suffix)).length := by
      simp
    have hb : (100 :: (encode_bencode k ++ suffix)).getD 0 0 = 100 := by simp
    rw [parse_at_dict_branch hlt hb]
    have hd1 : (100 :: (encode_bencode k ++ suffix)).drop 1 =
        encode_bencode k ++ suffix := rfl
    have hlt1 : (1 : Nat) < (100 :: (encode_bencode k ++ suffix)).length := by
      simp only [List.length_cons, List.length_append]
      have := encode_length_pos k
      omega
    have hb1 : (100 :: (encode_bencode k ++ suffix)).getD 1 0 = c :=
      getD_of_drop (c := c) (t := r ++ suffix) (by rw [hd1, hcr]; simp)
    have hp : parse_at (100 :: (encode_bencode k ++ suffix)) 1 =
        .ok (k, 1 + (encode_bencode k).length) :=
      parse_at_encode hwf hd1
    exact parseDictW_key_nonbytes hlt1 (by rw [hb1]; exact hne101) hp hnb
  · intro key v1 v2 hkb hklen hwf1 hwf2
    have hwfe : entriesWF [(key, v1), (key, v2)] = true := by
      simp [entriesWF, hkb, hwf1, hwf2]
      omega
    have hie := parseDictW_drop_entries
      (n := sizeOf v1 + sizeOf v2)
      (fun w _ hw buf idx rest hd => parse_at_encode hw hd)
      [(key, v1), (key, v2)]
      (by
        intro kv hkv
        simp only [List.mem_cons, List.mem_singleton] at hkv
        rcases hkv with h | h | h
        · rw [h]; dsimp only; omega
        · rw [h]; dsimp only; omega
        · exact absurd h (by simp))
      hwfe
    set buf := 100 :: (encode_bytes key ++ (encode_bencode v1 ++
      (encode_bytes key ++ (encode_bencode v2 ++ [101])))) with hbuf
    have hlt : (0 : Nat) < buf.length := by simp [hbuf]
    have hb : buf.getD 0 0 = 100 := by simp [hbuf]
    rw [parse_at_dict_branch hlt hb]
    have hd1 : buf.drop 1 =
        encodeEntries [(key, v1), (key, v2)] ++ 101 :: [] := by
      simp [hbuf, encodeEntries]
    rw [hie buf 1 [] [] hd1]
    have hia : insertAll [] [(key, v1), (key, v2)] = [(key, v2)] := by
      have hcmp : lexCompare key key = .eq := (lexCompare_eq_iff key key).mpr rfl
      simp [insertAll, dictInsert, hcmp]
    rw [hia]
    have hlen : 1 + (encodeEntries [(key, v1), (key, v2)]).length + 1 =
        buf.length := by
      simp [hbuf, encodeEntries]
      omega
    rw [hlen]

theorem claim_C6_witness :
    parse_at (100 :: (encode_bencode (.int 1) ++ [101])) 0 =
      .error (.invalid "dict key must be bytes") ∧
    parse_at (100 :: (encode_bytes (strBytes "a") ++ (encode_bencode (.int 1) ++
      (encode_bytes (strBytes "a") ++ (encode_bencode (.int 2) ++ [101]))))) 0 =
    .ok (.dict [(strBytes "a", .int 2)],
      (100 :: (encode_bytes (strBytes "a") ++ (encode_bencode (.int 1) ++
        (encode_bytes (strBytes "a") ++
          (encode_bencode (.int 2) ++ [101]))))).length) :=
  ⟨claim_C6.1 (.int 1) [101] (by decide) (fun kb h => by cases h),
   claim_C6.2 (strBytes "a") (.int 1) (.int 2) (by decide) (by decide)
     (by decide) (by decide)⟩

/-- C7 (amended): for an invoke request naming the supported operation,
the `args` field is accepted exactly when it is a nonempty list whose
first element is a byte string, or a bare byte string; whenever it is
absent or of any other shape, the dispatcher writes an error response
whose `ex-message` is `missing args` without calling the computation
(the response is independent of every external collaborator). -/
theorem claim_C7 (ext : Externals) (d : List (List Nat × Bencode))
    (hvar : (dict_get d (strBytes "var")).bind bencode_str =
      some (strBytes "pod.eigs/eigenvalues")) :
    (argBytes (dict_get d (strBytes "args")) = none ↔
      (∀ b, dict_get d (strBytes "args") ≠ some (.bytes b)) ∧
      (∀ b t, dict_get d (strBytes "args") ≠ some (.list (.bytes b :: t)))) ∧
    (argBytes (dict_get d (strBytes "args")) = none →
      handle_invoke ext d =
        write_error (dict_get d (strBytes "id")) "missing args") := by
  constructor
  · cases hargs : dict_get d (strBytes "args") with
    | none => simp [argBytes]
    | some v =>
      cases v with
      | bytes b =>
        simp only [argBytes]
        constructor
        · intro h
          exact absurd h (by simp)
        · intro ⟨h1, _⟩
          exact absurd rfl (h1 b)
      | int i => simp [argBytes]
      | dict d2 => simp [argBytes]
      | list items =>
        cases items with
        | nil => simp [argBytes]
        | cons x t =>
          cases x with
          | bytes b =>
            simp only [argBytes]
            constructor
            · intro h
              exact absurd h (by simp)
            · intro ⟨_, h2⟩
              exact absurd rfl (h2 b t)
          | int i => simp [argBytes]
          | list l2 => simp [argBytes]
          | dict d2 => simp [argBytes]
  · intro hargs
    exact handle_invoke_missing_args hvar hargs

theorem claim_C7_witness :
    handle_invoke ⟨fun _ => none, fun _ => none, fun _ => [], fun _ => none⟩
      [(strBytes "var", .bytes (strBytes "pod.eigs/eigenvalues"))] =
    write_error
      (dict_get [(strBytes "var", .bytes (strBytes "pod.eigs/eigenvalues"))]
        (strBytes "id")) "missing args" :=
  (claim_C7 ⟨fun _ => none, fun _ => none, fun _ => [], fun _ => none⟩
    [(strBytes "var", .bytes (strBytes "pod.eigs/eigenvalues"))] rfl).2 rfl

/-- C7 counterexample: the claim as stated is false on the code. The
request whose `args` is a two-element list with a byte-string first
element is neither a single-element list of a byte string nor a bare
byte string, yet the dispatcher does not write a `missing args` error:
it extracts the first element's bytes and proceeds to the JSON-parsing
stage (here an external parser rejecting the bytes, hence the
`invalid json input` error response, which differs from the
`missing args` response). -/
theorem claim_C7_counterexample :
    (∀ x, dict_get
      [(strBytes "args", .list [.bytes (strBytes "x"), .int 0]),
       (strBytes "var", .bytes (strBytes "pod.eigs/eigenvalues"))]
      (strBytes "args") ≠ some (.list [x])) ∧
    (∀ b, dict_get
      [(strBytes "args", .list [.bytes (strBytes "x"), .int 0]),
       (strBytes "var", .bytes (strBytes "pod.eigs/eigenvalues"))]
      (strBytes "args") ≠ some (.bytes b)) ∧
    handle_invoke ⟨fun _ => none, fun _ => none, fun _ => [], fun _ => none⟩
      [(strBytes "args", .list [.bytes (strBytes "x"), .int 0]),
       (strBytes "var", .bytes (strBytes "pod.eigs/eigenvalues"))] =
      write_error none "invalid json input" ∧
    write_error none "invalid json input" ≠ write_error none "missing args" := by
  refine ⟨?_, ?_, rfl, by decide⟩
  · intro x h
    simp [dict_get] at h
  · intro b h
    simp [dict_get] at h

/-- C8: silent drop of non-dispatchable messages: a complete decoded
message that is not a dict, or whose `op` is absent, not a byte string,
or not one of `describe`/`invoke`/`shutdown`, produces no response bytes,
and draining it leaves the session exactly as if only the remaining
bytes had arrived. -/
theorem claim_C8 (ext : Externals) (msg : Bencode) (rest : List Nat) (e : Nat)
    (hwf : valueWF msg = true)
    (h : (∀ d, msg ≠ .dict d) ∨
      (∃ d, msg = .dict d ∧
        (dict_get d (strBytes "op") = none ∨
         (∃ v, dict_get d (strBytes "op") = some v ∧ ∀ b, v ≠ .bytes b) ∨
         (∃ b, dict_get d (strBytes "op") = some (.bytes b) ∧
           b ≠ strBytes "describe" ∧ b ≠ strBytes "invoke" ∧
           b ≠ strBytes "shutdown")))) :
    handle_message ext msg = [] ∧
    drain ext (encode_bencode msg ++ rest) e = drain ext rest e := by
  obtain ⟨h1, h2⟩ := @handle_message_silent ext msg h
  exact ⟨h1, drain_encode_skip hwf h2 h1 rest e⟩

theorem claim_C8_witness :
    handle_message ⟨fun _ => none, fun _ => none, fun _ => [], fun _ => none⟩
      (.dict [(strBytes "op", .bytes (strBytes "mystery"))]) = [] ∧
    drain ⟨fun _ => none, fun _ => none, fun _ => [], fun _ => none⟩
      (encode_bencode (.dict [(strBytes "op", .bytes (strBytes "mystery"))]) ++
        [1]) 0 =
    drain ⟨fun _ => none, fun _ => none, fun _ => [], fun _ => none⟩ [1] 0 :=
  claim_C8 ⟨fun _ => none, fun _ => none, fun _ => [], fun _ => none⟩
    (.dict [(strBytes "op", .bytes (strBytes "mystery"))]) [1] 0
    (by decide)
    (Or.inr ⟨[(strBytes "op", .bytes (strBytes "mystery"))], rfl,
      Or.inr (Or.inr ⟨strBytes "mystery", rfl,
        by decide, by decide, by decide⟩)⟩)

/-- C9: symmetric-check failure: for a matrix reached through the
dispatcher with the `symmetric` flag set, the eigenvalue computation
fails with the message `matrix is not symmetric within epsilon` exactly
when some off-diagonal pair differs from its transpose counterpart by
more than `1e-9`; in that case the dispatcher writes an error response,
whose `ex-message` holds the failure message verbatim, and the session
loop does not terminate on this message. -/
theorem claim_C9 (ext : Externals) (d : List (List Nat × Bencode))
    {ab : List Nat} {j input : Json} {matrix : List ℚ}
    (hop : dict_get d (strBytes "op") = some (.bytes (strBytes "invoke")))
    (hvar : (dict_get d (strBytes "var")).bind bencode_str =
      some (strBytes "pod.eigs/eigenvalues"))
    (hargs : argBytes (dict_get d (strBytes "args")) = some ab)
    (hjson : ext.jsonParse ab = some j)
    (hunwrap : unwrapSingle j = .ok input)
    (hbuild : build_matrix input = .ok (matrix, true)) :
    (eigenvalues_for ext matrix true =
        .error "matrix is not symmetric within epsilon" ↔
      ∃ a b : Nat, a < 6 ∧ b < 6 ∧ a < b ∧
        1 / 10 ^ 9 < |entryAt matrix a b - entryAt matrix b a|) ∧
    shutdownCheck (.dict d) = false ∧
    (check_symmetric matrix (1 / 10 ^ 9) = false →
      handle_invoke ext d =
        write_error (dict_get d (strBytes "id"))
          "matrix is not symmetric within epsilon") ∧
    (∀ id msg, ∃ rd, write_error id msg = [encode_bencode (.dict rd)] ∧
      dict_get rd (strBytes "ex-message") = some (.bytes (strBytes msg))) := by
  refine ⟨?_, ?_, ?_, ?_⟩
  · constructor
    · intro h
      cases hc : check_symmetric matrix (1 / 10 ^ 9) with
      | false => exact (check_symmetric_eq_false_iff _ _).mp hc
      | true =>
        exfalso
        simp only [eigenvalues_for, reduceIte] at h
        rw [hc] at h
        simp at h
    · intro hex
      have hc := (check_symmetric_eq_false_iff _ _).mpr hex
      simp only [eigenvalues_for, reduceIte]
      rw [hc]
      rfl
  · exact shutdownCheck_of_op hop (by decide)
  · intro hc
    exact handle_invoke_sym_fail hvar hargs hjson hunwrap hbuild hc
  · intro id msg
    cases id with
    | none => exact ⟨_, rfl, rfl⟩
    | some i => exact ⟨_, rfl, rfl⟩

theorem claim_C9_witness :
    handle_invoke
      (⟨fun _ => some (Json.obj
      [("data", .arr [.num 0, .num 1, .num 0, .num 0, .num 0, .num 0,
        .num 0, .num 0, .num 0, .num 0, .num 0, .num 0,
        .num 0, .num 0, .num 0, .num 0, .num 0, .num 0,
        .num 0, .num 0, .num 0, .num 0, .num 0, .num 0,
        .num 0, .num 0, .num 0, .num 0, .num 0, .num 0,
        .num 0, .num 0, .num 0, .num 0, .num 0, .num 0]),
       ("symmetric", .bool true)]),
     fun _ => none, fun _ => [], fun _ => none⟩ : Externals)
      [(strBytes "op", Bencode.bytes (strBytes "invoke")),
     (strBytes "var", Bencode.bytes (strBytes "pod.eigs/eigenvalues")),
     (strBytes "args", Bencode.bytes (strBytes "x"))] =
    write_error
      (dict_get
        [(strBytes "op", Bencode.bytes (strBytes "invoke")),
     (strBytes "var", Bencode.bytes (strBytes "pod.eigs/eigenvalues")),
     (strBytes "args", Bencode.bytes (strBytes "x"))] (strBytes "id"))
      "matrix is not symmetric within epsilon" := by
  have ha : argBytes (dict_get
    [(strBytes "op", Bencode.bytes (strBytes "invoke")),
     (strBytes "var", Bencode.bytes (strBytes "pod.eigs/eigenvalues")),
     (strBytes "args", Bencode.bytes (strBytes "x"))] (strBytes "args")) = some (strBytes "x") := rfl
  have hjs : Externals.jsonParse
    (⟨fun _ => some (Json.obj
      [("data", .arr [.num 0, .num 1, .num 0, .num 0, .num 0, .num 0,
        .num 0, .num 0, .num 0, .num 0, .num 0, .num 0,
        .num 0, .num 0, .num 0, .num 0, .num 0, .num 0,
        .num 0, .num 0, .num 0, .num 0, .num 0, .num 0,
        .num 0, .num 0, .num 0, .num 0, .num 0, .num 0,
        .num 0, .num 0, .num 0, .num 0, .num 0, .num 0]),
       ("symmetric", .bool true)]),
     fun _ => none, fun _ => [], fun _ => none⟩ : Externals) (strBytes "x") =
    some (Json.obj
      [("data", .arr [.num 0, .num 1, .num 0, .num 0, .num 0, .num 0,
        .num 0, .num 0, .num 0, .num 0, .num 0, .num 0,
        .num 0, .num 0, .num 0, .num 0, .num 0, .num 0,
        .num 0, .num 0, .num 0, .num 0, .num 0, .num 0,
        .num 0, .num 0, .num 0, .num 0, .num 0, .num 0,
        .num 0, .num 0, .num 0, .num 0, .num 0, .num 0]),
       ("symmetric", .bool true)]) := rfl
  have hun : unwrapSingle
    (Json.obj
      [("data", .arr [.num 0, .num 1, .num 0, .num 0, .num 0, .num 0,
        .num 0, .num 0, .num 0, .num 0, .num 0, .num 0,
        .num 0, .num 0, .num 0, .num 0, .num 0, .num 0,
        .num 0, .num 0, .num 0, .num 0, .num 0, .num 0,
        .num 0, .num 0, .num 0, .num 0, .num 0, .num 0,
        .num 0, .num 0, .num 0, .num 0, .num 0, .num 0]),
       ("symmetric", .bool true)]) =
    Except.ok (Json.obj
      [("data", .arr [.num 0, .num 1, .num 0, .num 0, .num 0, .num 0,
        .num 0, .num 0, .num 0, .num 0, .num 0, .num 0,
        .num 0, .num 0, .num 0, .num 0, .num 0, .num 0,
        .num 0, .num 0, .num 0, .num 0, .num 0, .num 0,
        .num 0, .num 0, .num 0, .num 0, .num 0, .num 0,
        .num 0, .num 0, .num 0, .num 0, .num 0, .num 0]),
       ("symmetric", .bool true)]) := rfl
  have hb : build_matrix
    (Json.obj
      [("data", .arr [.num 0, .num 1, .num 0, .num 0, .num 0, .num 0,
        .num 0, .num 0, .num 0, .num 0, .num 0, .num 0,
        .num 0, .num 0, .num 0, .num 0, .num 0, .num 0,
        .num 0, .num 0, .num 0, .num 0, .num 0, .num 0,
        .num 0, .num 0, .num 0, .num 0, .num 0, .num 0,
        .num 0, .num 0, .num 0, .num 0, .num 0, .num 0]),
       ("symmetric", .bool true)]) =
    Except.ok (([0, 1, 0, 0, 0, 0,
      0, 0, 0, 0, 0, 0,
      0, 0, 0, 0, 0, 0,
      0, 0, 0, 0, 0, 0,
      0, 0, 0, 0, 0, 0,
      0, 0, 0, 0, 0, 0] : List ℚ), true) := rfl
  have h1 : entryAt
    ([0, 1, 0, 0, 0, 0,
      0, 0, 0, 0, 0, 0,
      0, 0, 0, 0, 0, 0,
      0, 0, 0, 0, 0, 0,
      0, 0, 0, 0, 0, 0,
      0, 0, 0, 0, 0, 0] : List ℚ) 0 1 = (1 : ℚ) := rfl
  have h2 : entryAt
    ([0, 1, 0, 0, 0, 0,
      0, 0, 0, 0, 0, 0,
      0, 0, 0, 0, 0, 0,
      0, 0, 0, 0, 0, 0,
      0, 0, 0, 0, 0, 0,
      0, 0, 0, 0, 0, 0] : List ℚ) 1 0 = (0 : ℚ) := rfl
  have hm : (1 : ℚ) / 10 ^ 9 <
      |entryAt ([0, 1, 0, 0, 0, 0,
      0, 0, 0, 0, 0, 0,
      0, 0, 0, 0, 0, 0,
      0, 0, 0, 0, 0, 0,
      0, 0, 0, 0, 0, 0,
      0, 0, 0, 0, 0, 0] : List ℚ) 0 1 -
       entryAt ([0, 1, 0, 0, 0, 0,
      0, 0, 0, 0, 0, 0,
      0, 0, 0, 0, 0, 0,
      0, 0, 0, 0, 0, 0,
      0, 0, 0, 0, 0, 0,
      0, 0, 0, 0, 0, 0] : List ℚ) 1 0| := by
    rw [h1, h2, sub_zero, abs_one]
    norm_num
  exact (claim_C9
    (⟨fun _ => some (Json.obj
      [("data", .arr [.num 0, .num 1, .num 0, .num 0, .num 0, .num 0,
        .num 0, .num 0, .num 0, .num 0, .num 0, .num 0,
        .num 0, .num 0, .num 0, .num 0, .num 0, .num 0,
        .num 0, .num 0, .num 0, .num 0, .num 0, .num 0,
        .num 0, .num 0, .num 0, .num 0, .num 0, .num 0,
        .num 0, .num 0, .num 0, .num 0, .num 0, .num 0]),
       ("symmetric", .bool true)]),
     fun _ => none, fun _ => [], fun _ => none⟩ : Externals)
    [(strBytes "op", Bencode.bytes (strBytes "invoke")),
     (strBytes "var", Bencode.bytes (strBytes "pod.eigs/eigenvalues")),
     (strBytes "args", Bencode.bytes (strBytes "x"))]
    rfl rfl ha hjs hun hb).2.2.1
    ((check_symmetric_eq_false_iff _ _).mpr
      ⟨0, 1, by norm_num, by norm_num, by norm_num, hm⟩)

/-- C10: parser progress and totality: every successful parse consumes at
least one byte (the returned index strictly exceeds the starting index)
and never runs past the end of the buffer; and every value's encoding is
at least one byte long, the measure under which the recursion of the
parser is well-founded. -/
theorem claim_C10 (buf : List Nat) (idx n : Nat) (v : Bencode)
    (h : parse_at buf idx = .ok (v, n)) :
    idx < n ∧ n ≤ buf.length ∧ 0 < (encode_bencode v).length := by
  obtain ⟨h1, h2⟩ := parse_at_bounds h
  exact ⟨h1, h2, encode_length_pos v⟩

theorem claim_C10_witness :
    0 < 3 ∧ 3 ≤ ([105, 48, 101] : List Nat).length ∧
      0 < (encode_bencode (.int 0)).length :=
  claim_C10 [105, 48, 101] 0 3 (.int 0)
    (parse_at_encode (v := Bencode.int 0) (by decide)
      (show ([105, 48, 101] : List Nat).drop 0 =
        encode_bencode (Bencode.int 0) ++ [] from rfl))
